import Mathlib

/-!
Verification of the WHO GHO ingestion pipeline (scripts/ingest_who.py).

The development shallowly embeds the pipeline's core:
  * `Json` / `jdump` — the record model and the text serialization used by the
    raw sink (Python `json.dumps(r, ensure_ascii=False)` with the default
    separators), together with a deserializer `jsonParse` covering exactly the
    grammar the serializer emits (the relevant sub-language of `json.loads`);
  * `iter_pages` — the cursor-based pagination loop, modelled over an abstract
    HTTP session `Nat → Nat → PageResp` (a function of `$skip` and `$top`),
    with fuel making the loop total; besides the yielded records it returns
    the trace of fetch calls and how the run ended;
  * `write_jsonl` — the raw JSONL sink;
  * `get_snowflake_config` / `write_jsonl_and_snowflake` — the warehouse
    configuration reader and the dual-sink writer, modelled with an explicit
    event trace (table creation, batched inserts, commit, connection close)
    and explicit failure injection points (stream failure, insert failure,
    connect failure), mirroring the source's try/finally control flow.
-/

/-! ## The record model: JSON documents -/

/-- A Python float as it appears in a JSON document: the shortest decimal
form that round-trips to the underlying IEEE-754 double, i.e. the output of
`float.__repr__` — optional sign, integer-part digits, optional fraction
digits, optional signed exponent digits (e.g. `66.4`, `-0.5`, `1.5e-05`,
`1e+16`). `json.dumps` prints a float exactly as this form and CPython's
`repr` is injective on doubles with `json.loads` of the repr recovering the
same double, so carrying (and reproducing verbatim) this form is precisely
what "no precision loss" means for a float field. -/
structure PyFloat where
  neg : Bool
  ip : List Char
  fp : List Char
  exp : Option (Bool × List Char)

/-- A JSON document as handled by the pipeline: Python scalars, lists and
dicts (dicts as insertion-ordered association lists). Numbers are Python
ints (arbitrary precision) or floats (their `float.__repr__` decimal
form, see `PyFloat`). -/
inductive Json where
  | null : Json
  | bool : Bool → Json
  | int : Int → Json
  | flt : PyFloat → Json
  | str : String → Json
  | arr : List Json → Json
  | obj : List (String × Json) → Json

/-- The printed fraction part of a float: nothing, or a dot and digits. -/
def pyFloatFracPart (fp : List Char) : List Char :=
  if fp.isEmpty then [] else '.' :: fp

/-- The printed exponent part of a float: nothing, or `e`, an explicit sign
and digits (`float.__repr__` always prints the exponent sign). -/
def pyFloatExpPart : Option (Bool × List Char) → List Char
  | none => []
  | some p => 'e' :: ((if p.1 then '-' else '+') :: p.2)

/-- The serialized text of a float: sign, integer digits, optional `.`
fraction, optional `e`-exponent with explicit sign — the grammar of
`float.__repr__`, which is what `json.dumps` writes for a float. -/
def pyFloatRepr (f : PyFloat) : List Char :=
  (if f.neg then ['-'] else []) ++
    (f.ip ++ (pyFloatFracPart f.fp ++ pyFloatExpPart f.exp))

theorem pyFloatRepr_false (ip fp : List Char) (ex : Option (Bool × List Char)) :
    pyFloatRepr ⟨false, ip, fp, ex⟩
      = ip ++ (pyFloatFracPart fp ++ pyFloatExpPart ex) := rfl

theorem pyFloatRepr_true (ip fp : List Char) (ex : Option (Bool × List Char)) :
    pyFloatRepr ⟨true, ip, fp, ex⟩
      = '-' :: (ip ++ (pyFloatFracPart fp ++ pyFloatExpPart ex)) := rfl

theorem pyFloatFracPart_cons (fp : List Char) (h : fp ≠ []) :
    pyFloatFracPart fp = '.' :: fp := by
  cases fp with
  | nil => exact absurd rfl h
  | cons a t => rfl

/-- Well-formedness of a float's decimal form: nonempty digit-only integer
part, digit-only fraction, and a fraction or an exponent (with nonempty
digit-only digits) present. Every float printed by `float.__repr__`
satisfies this. -/
def PyFloat.wf (f : PyFloat) : Bool :=
  !f.ip.isEmpty && (f.ip.all Char.isDigit && (f.fp.all Char.isDigit &&
    (match f.exp with
     | none => !f.fp.isEmpty
     | some p => !p.2.isEmpty && p.2.all Char.isDigit)))

/-- A record returned by the WHO API: one JSON object (a Python dict). -/
abbrev Rec := List (String × Json)

/-- Worker for `natDigits`: structural recursion on a fuel bound. -/
def natDigitsGo : Nat → Nat → List Char
  | 0, _ => []
  | fuel + 1, n =>
    if n < 10 then [Nat.digitChar n]
    else natDigitsGo fuel (n / 10) ++ [Nat.digitChar (n % 10)]

/-- Decimal digits of `n`, most significant first (Python `int.__repr__`). -/
def natDigits (n : Nat) : List Char :=
  natDigitsGo (n + 1) n

theorem natDigitsGo_congr : ∀ (n fuel fuel' : Nat), n < fuel → n < fuel' →
    natDigitsGo fuel n = natDigitsGo fuel' n := by
  intro n
  induction n using Nat.strong_induction_on with
  | _ n ih =>
    intro fuel fuel' hf hf'
    cases fuel with
    | zero => omega
    | succ f =>
      cases fuel' with
      | zero => omega
      | succ f' =>
        rw [natDigitsGo, natDigitsGo]
        split
        · rfl
        · rename_i h
          rw [ih (n / 10) (Nat.div_lt_self (by omega) (by omega)) f f'
            (by have := Nat.div_lt_self (show 0 < n by omega) (show 1 < 10 by omega); omega)
            (by have := Nat.div_lt_self (show 0 < n by omega) (show 1 < 10 by omega); omega)]

/-- The defining recurrence of `natDigits`. -/
theorem natDigits_eq (n : Nat) :
    natDigits n = if n < 10 then [Nat.digitChar n]
      else natDigits (n / 10) ++ [Nat.digitChar (n % 10)] := by
  rw [natDigits, natDigitsGo]
  split
  · rfl
  · rename_i h
    rw [natDigits, natDigitsGo_congr (n / 10) n (n / 10 + 1)
      (Nat.div_lt_self (by omega) (by omega)) (by omega)]

/-- The escape of one character inside a JSON string, as produced by Python
`json.dumps(..., ensure_ascii=False)`: quote and backslash are escaped, the
five named control characters use their short escapes, any other control
character becomes `\u00xx`, everything else is emitted verbatim. -/
def escapeChar (c : Char) : List Char :=
  if c = '"' then ['\\', '"']
  else if c = '\\' then ['\\', '\\']
  else if c = '\x08' then ['\\', 'b']
  else if c = '\x09' then ['\\', 't']
  else if c = '\x0a' then ['\\', 'n']
  else if c = '\x0c' then ['\\', 'f']
  else if c = '\x0d' then ['\\', 'r']
  else if c.toNat < 32 then
    ['\\', 'u', '0', '0', Nat.digitChar (c.toNat / 16), Nat.digitChar (c.toNat % 16)]
  else [c]

/-- The body of a serialized JSON string: every character escaped. -/
def escapeString (s : String) : List Char :=
  (s.data.map escapeChar).flatten

/-- A serialized JSON string: escaped body between double quotes. -/
def jdumpString (s : String) : List Char :=
  '"' :: (escapeString s ++ ['"'])

mutual

/-- Python `json.dumps` with the default separators `", "` and `": "` and
`ensure_ascii=False`, as called by the raw sink and the warehouse sink. -/
def jdump : Json → List Char
  | .int n => if n < 0 then '-' :: natDigits n.natAbs else natDigits n.natAbs
  | .flt f => pyFloatRepr f
  | .str s => jdumpString s
  | .bool b => if b then ['t', 'r', 'u', 'e'] else ['f', 'a', 'l', 's', 'e']
  | .null => ['n', 'u', 'l', 'l']
  | .arr [] => ['[', ']']
  | .arr (j :: l) => '[' :: ((jdump j ++ jdumpElems l) ++ [']'])
  | .obj [] => ['\x7b', '\x7d']
  | .obj (kv :: l) => '\x7b' :: ((jdumpMember kv ++ jdumpMembers l) ++ ['\x7d'])

/-- Remaining array items, each preceded by the `", "` separator. -/
def jdumpElems : List Json → List Char
  | [] => []
  | j :: l => ',' :: ' ' :: (jdump j ++ jdumpElems l)

/-- One object member: serialized key, `": "`, serialized value. -/
def jdumpMember : String × Json → List Char
  | (k, v) => jdumpString k ++ (':' :: ' ' :: jdump v)

/-- Remaining object members, each preceded by the `", "` separator. -/
def jdumpMembers : List (String × Json) → List Char
  | [] => []
  | kv :: l => ',' :: ' ' :: (jdumpMember kv ++ jdumpMembers l)

end

/-- The serialized form of a document as a string (one line of JSONL). -/
def jdumps (j : Json) : String :=
  String.mk (jdump j)

mutual

/-- Well-formedness of a document: every float in it is in `float.__repr__`
form (`PyFloat.wf`). Every record decoded by `resp.json()` satisfies this,
since its floats are doubles carried in exactly that form. -/
def jsonWf : Json → Bool
  | .flt f => f.wf
  | .arr l => jsonWfElems l
  | .obj l => jsonWfMembers l
  | .null => true
  | .bool _ => true
  | .int _ => true
  | .str _ => true

/-- Well-formedness of the items of an array. -/
def jsonWfElems : List Json → Bool
  | [] => true
  | j :: l => jsonWf j && jsonWfElems l

/-- Well-formedness of the member values of an object. -/
def jsonWfMembers : List (String × Json) → Bool
  | [] => true
  | kv :: l => jsonWf kv.2 && jsonWfMembers l

end

theorem natDigits_ne_nil (n : Nat) : natDigits n ≠ [] := by
  rw [natDigits_eq]
  split <;> simp

theorem pyFloatRepr_ne_nil (f : PyFloat) (hwf : f.wf = true) : pyFloatRepr f ≠ [] := by
  obtain ⟨neg, ip, fp, ex⟩ := f
  have hip : ip ≠ [] := by
    rw [PyFloat.wf] at hwf
    simp only [Bool.and_eq_true, Bool.not_eq_true', List.isEmpty_eq_false] at hwf
    exact hwf.1
  cases neg with
  | false =>
    rw [pyFloatRepr_false]
    intro h
    rw [List.append_eq_nil] at h
    exact hip h.1
  | true =>
    rw [pyFloatRepr_true]
    exact List.cons_ne_nil _ _

theorem jdump_ne_nil (j : Json) (hwf : jsonWf j = true) : jdump j ≠ [] := by
  cases j with
  | null => simp [jdump]
  | bool b => cases b <;> simp [jdump]
  | int n =>
    rw [jdump]
    split
    · simp
    · exact natDigits_ne_nil _
  | flt f =>
    rw [jdump]
    exact pyFloatRepr_ne_nil f (by simpa [jsonWf] using hwf)
  | str s => simp [jdump, jdumpString]
  | arr l => cases l <;> simp [jdump]
  | obj l => cases l <;> simp [jdump]

/-! ## The deserializer

`jsonParse` models `json.loads` on the sub-language that `json.dumps` emits
(no insignificant whitespace beyond the `", "` and `": "` separators; numbers
are `-?digits` with optional `.digits` fraction and optional `e`/`E` signed
exponent, an integer when both are absent and a float otherwise, exactly as
`json.loads` dispatches on its number match). It is a recursive-descent
parser threading the unconsumed tail. -/

/-- Decode one hexadecimal digit. -/
def unhexDigit (c : Char) : Option Nat :=
  if '0' ≤ c ∧ c ≤ '9' then some (c.toNat - 48)
  else if 'a' ≤ c ∧ c ≤ 'f' then some (c.toNat - 87)
  else if 'A' ≤ c ∧ c ≤ 'F' then some (c.toNat - 55)
  else none

/-- Decode one short escape character (the character after a backslash). -/
def escMap (e : Char) : Option Char :=
  if e = '"' then some '"'
  else if e = '\\' then some '\\'
  else if e = '/' then some '/'
  else if e = 'b' then some '\x08'
  else if e = 't' then some '\x09'
  else if e = 'n' then some '\x0a'
  else if e = 'f' then some '\x0c'
  else if e = 'r' then some '\x0d'
  else none

/-- Parse the body of a JSON string up to the closing quote, undoing the
escapes; returns the decoded characters and the unconsumed tail. Raw control
characters are rejected, as in Python's strict `json.loads`. -/
def parseStringBody : List Char → Option (List Char × List Char)
  | [] => none
  | c :: rest =>
    if c = '"' then some ([], rest)
    else if c = '\\' then
      match rest with
      | [] => none
      | e :: rest2 =>
        if e = 'u' then
          match rest2 with
          | h1 :: h2 :: h3 :: h4 :: rest3 =>
            match unhexDigit h1, unhexDigit h2, unhexDigit h3, unhexDigit h4 with
            | some a, some b, some c1, some d =>
              (parseStringBody rest3).map
                (fun p => (Char.ofNat (((a * 16 + b) * 16 + c1) * 16 + d) :: p.1, p.2))
            | _, _, _, _ => none
          | _ => none
        else
          match escMap e with
          | some c1 => (parseStringBody rest2).map (fun p => (c1 :: p.1, p.2))
          | none => none
    else if c.toNat < 32 then none
    else (parseStringBody rest).map (fun p => (c :: p.1, p.2))

/-- Accumulate decimal digits into a number, left to right. -/
def digitsToNat : List Char → Nat → Nat
  | [], acc => acc
  | c :: cs, acc => digitsToNat cs (acc * 10 + (c.toNat - 48))

/-- Parse a maximal nonempty run of decimal digits, kept as characters. -/
def parseDigits (cs : List Char) : Option (List Char × List Char) :=
  let ds := cs.takeWhile Char.isDigit
  if ds.isEmpty then none
  else some (ds, cs.dropWhile Char.isDigit)

/-- The integer document a sign and a digit run denote. -/
def intOfDigits (neg : Bool) (ip : List Char) : Json :=
  if neg then .int (-(Int.ofNat (digitsToNat ip 0)))
  else .int (Int.ofNat (digitsToNat ip 0))

/-- Parse an exponent after the `e`/`E`: an optional sign then digits. -/
def parseExpPart (cs : List Char) : Option ((Bool × List Char) × List Char) :=
  if cs.head? = some '+' then (parseDigits cs.tail).map (fun p => ((false, p.1), p.2))
  else if cs.head? = some '-' then (parseDigits cs.tail).map (fun p => ((true, p.1), p.2))
  else (parseDigits cs).map (fun p => ((false, p.1), p.2))

/-- Parse an optional `e`/`E` exponent part. -/
def parseExpOpt (cs : List Char) : Option (Option (Bool × List Char) × List Char) :=
  if cs.head? = some 'e' ∨ cs.head? = some 'E' then
    (parseExpPart cs.tail).map (fun p => (some p.1, p.2))
  else some (none, cs)

/-- Finish a number whose integer-part digits have been read: an optional
fraction and an optional exponent make it a float, otherwise it is an
integer (`json.loads` turns the number text into a float exactly when a
fraction or exponent is present). -/
def parseNumberRest (neg : Bool) (ip : List Char) (cs : List Char) :
    Option (Json × List Char) :=
  if cs.head? = some '.' then
    match parseDigits cs.tail with
    | some (fp, cs2) =>
      match parseExpOpt cs2 with
      | some (p, cs3) => some (.flt ⟨neg, ip, fp, p⟩, cs3)
      | none => none
    | none => none
  else if cs.head? = some 'e' ∨ cs.head? = some 'E' then
    match parseExpPart cs.tail with
    | some (p, cs2) => some (.flt ⟨neg, ip, [], some p⟩, cs2)
    | none => none
  else some (intOfDigits neg ip, cs)

/-- Parse a number (after its optional minus sign): integer-part digits,
then fraction and exponent if present. -/
def parseNumber (neg : Bool) (cs : List Char) : Option (Json × List Char) :=
  match parseDigits cs with
  | some (ip, rest) => parseNumberRest neg ip rest
  | none => none

mutual

/-- Parse one JSON value off the front of the input (fuel-bounded). -/
def parseValue : Nat → List Char → Option (Json × List Char)
  | 0, _ => none
  | _ + 1, [] => none
  | fuel + 1, c :: cs =>
    if c.isDigit then parseNumber false (c :: cs)
    else if c = '-' then parseNumber true cs
    else if c = '"' then
      match parseStringBody cs with
      | some (s, rest) => some (.str (String.mk s), rest)
      | none => none
    else if c = '[' then
      if cs.head? = some ']' then some (.arr [], cs.tail)
      else
        match parseElems fuel cs with
        | some (l, rest) => some (.arr l, rest)
        | none => none
    else if c = '\x7b' then
      if cs.head? = some '\x7d' then some (.obj [], cs.tail)
      else
        match parseMembers fuel cs with
        | some (l, rest) => some (.obj l, rest)
        | none => none
    else
      match c, cs with
      | 'n', 'u' :: 'l' :: 'l' :: rest => some (.null, rest)
      | 't', 'r' :: 'u' :: 'e' :: rest => some (.bool true, rest)
      | 'f', 'a' :: 'l' :: 's' :: 'e' :: rest => some (.bool false, rest)
      | _, _ => none

/-- Parse the nonempty item list of a JSON array, including the closing
bracket; items are separated by `", "`. -/
def parseElems : Nat → List Char → Option (List Json × List Char)
  | 0, _ => none
  | fuel + 1, cs =>
    match parseValue fuel cs with
    | some (j, rest) =>
      match rest with
      | ']' :: rest2 => some ([j], rest2)
      | ',' :: ' ' :: rest2 =>
        match parseElems fuel rest2 with
        | some (l, rest3) => some (j :: l, rest3)
        | none => none
      | _ => none
    | none => none

/-- Parse the nonempty member list of a JSON object, including the closing
brace; members are `"key": value` separated by `", "`. -/
def parseMembers : Nat → List Char → Option (List (String × Json) × List Char)
  | 0, _ => none
  | fuel + 1, cs =>
    match cs with
    | '"' :: cs1 =>
      match parseStringBody cs1 with
      | some (k, rest) =>
        match rest with
        | ':' :: ' ' :: rest1 =>
          match parseValue fuel rest1 with
          | some (v, rest2) =>
            match rest2 with
            | '\x7d' :: rest3 => some ([(String.mk k, v)], rest3)
            | ',' :: ' ' :: rest3 =>
              match parseMembers fuel rest3 with
              | some (l, rest4) => some ((String.mk k, v) :: l, rest4)
              | none => none
            | _ => none
          | none => none
        | _ => none
      | none => none
    | _ => none

end

/-- Deserialize one JSONL line: parse one value and require the whole input
to be consumed. -/
def jsonParse (s : String) : Option Json :=
  match parseValue (s.length + 1) s.data with
  | some (j, []) => some j
  | _ => none

/-! ## Round-trip lemmas: numbers -/

theorem digitChar_isDigit (d : Nat) (hd : d < 10) : (Nat.digitChar d).isDigit = true := by
  interval_cases d <;> decide

theorem digitChar_toNat (d : Nat) (hd : d < 10) : (Nat.digitChar d).toNat - 48 = d := by
  interval_cases d <;> decide

theorem natDigits_isDigit (n : Nat) : ∀ c ∈ natDigits n, c.isDigit = true := by
  induction n using Nat.strong_induction_on with
  | _ n ih =>
    rw [natDigits_eq]
    split
    · intro c hc
      rw [List.mem_singleton] at hc
      subst hc
      exact digitChar_isDigit _ (by omega)
    · intro c hc
      rcases List.mem_append.1 hc with h | h
      · exact ih (n / 10) (Nat.div_lt_self (by omega) (by omega)) c h
      · rw [List.mem_singleton] at h
        subst h
        exact digitChar_isDigit _ (Nat.mod_lt _ (by omega))

theorem digitsToNat_append (acc : Nat) (xs ys : List Char) :
    digitsToNat (xs ++ ys) acc = digitsToNat ys (digitsToNat xs acc) := by
  induction xs generalizing acc with
  | nil => simp [digitsToNat]
  | cons c cs ih => simp [digitsToNat, ih]

theorem digitsToNat_natDigits (n : Nat) : ∀ acc : Nat,
    digitsToNat (natDigits n) acc = acc * 10 ^ (natDigits n).length + n := by
  induction n using Nat.strong_induction_on with
  | _ n ih =>
    intro acc
    rw [natDigits_eq]
    split
    · rename_i h
      simp [digitsToNat, digitChar_toNat n h]
    · rename_i h
      rw [digitsToNat_append, ih (n / 10) (Nat.div_lt_self (by omega) (by omega))]
      simp only [digitsToNat, List.length_append, List.length_singleton]
      rw [digitChar_toNat (n % 10) (Nat.mod_lt _ (by omega))]
      have hmod := Nat.div_add_mod n 10
      have hpow : 10 ^ ((natDigits (n / 10)).length + 1)
          = 10 ^ (natDigits (n / 10)).length * 10 := by
        rw [Nat.pow_succ]
      rw [hpow]
      ring_nf
      omega

/-- Head test used to state when a tail cannot extend a number literal:
the tail must not start with a digit, a fraction dot or an exponent
letter. -/
def nonDigitStart : List Char → Bool
  | [] => true
  | c :: _ => !(c.isDigit || c == '.' || c == 'e' || c == 'E')

theorem nonDigitStart_facts (c : Char) (t : List Char)
    (h : nonDigitStart (c :: t) = true) :
    c.isDigit = false ∧ c ≠ '.' ∧ c ≠ 'e' ∧ c ≠ 'E' := by
  simp only [nonDigitStart, Bool.not_eq_true', Bool.or_eq_false_iff,
    beq_eq_false_iff_ne, ne_eq] at h
  exact ⟨h.1.1.1, h.1.1.2, h.1.2, h.2⟩

theorem nonDigitStart_not_digit (rest : List Char)
    (h : nonDigitStart rest = true) :
    ∀ c, rest.head? = some c → c.isDigit = false := by
  intro c hc
  cases rest with
  | nil => simp at hc
  | cons r t =>
    simp only [List.head?_cons, Option.some.injEq] at hc
    subst hc
    exact (nonDigitStart_facts _ t h).1

theorem takeWhile_append_all {p : Char → Bool} {xs ys : List Char}
    (hx : ∀ x ∈ xs, p x = true) (hy : ∀ c, ys.head? = some c → p c = false) :
    (xs ++ ys).takeWhile p = xs ∧ (xs ++ ys).dropWhile p = ys := by
  induction xs with
  | nil =>
    simp only [List.nil_append]
    cases ys with
    | nil => simp
    | cons y t =>
      have := hy y rfl
      simp [List.takeWhile, List.dropWhile, this]
  | cons x xs ih =>
    have hx1 : p x = true := hx x (List.mem_cons_self x xs)
    have := ih (fun a ha => hx a (List.mem_cons_of_mem x ha))
    simp [List.takeWhile, List.dropWhile, hx1, this.1, this.2]

theorem parseDigits_run (ds rest : List Char) (hne : ds ≠ [])
    (hds : ∀ c ∈ ds, c.isDigit = true)
    (hrest : ∀ c, rest.head? = some c → c.isDigit = false) :
    parseDigits (ds ++ rest) = some (ds, rest) := by
  have hsplit := takeWhile_append_all hds hrest
  rw [parseDigits]
  simp only [hsplit.1, hsplit.2]
  rw [if_neg (by simp [List.isEmpty_iff, hne])]

theorem parseNumberRest_dot (neg : Bool) (ip cs : List Char) :
    parseNumberRest neg ip ('.' :: cs)
      = match parseDigits cs with
        | some (fp2, cs2) =>
          match parseExpOpt cs2 with
          | some (p, cs3) => some (.flt ⟨neg, ip, fp2, p⟩, cs3)
          | none => none
        | none => none := rfl

theorem parseNumberRest_e (neg : Bool) (ip cs : List Char) :
    parseNumberRest neg ip ('e' :: cs)
      = match parseExpPart cs with
        | some (p, cs2) => some (.flt ⟨neg, ip, [], some p⟩, cs2)
        | none => none := rfl

theorem parseExpOpt_e (cs : List Char) :
    parseExpOpt ('e' :: cs) = (parseExpPart cs).map (fun p => (some p.1, p.2)) := rfl

theorem parseExpPart_plus (cs : List Char) :
    parseExpPart ('+' :: cs) = (parseDigits cs).map (fun p => ((false, p.1), p.2)) := rfl

theorem parseExpPart_minus (cs : List Char) :
    parseExpPart ('-' :: cs) = (parseDigits cs).map (fun p => ((true, p.1), p.2)) := rfl

theorem parseNumberRest_default (neg : Bool) (ip cs : List Char)
    (h : nonDigitStart cs = true) :
    parseNumberRest neg ip cs = some (intOfDigits neg ip, cs) := by
  cases cs with
  | nil => rfl
  | cons c t =>
    obtain ⟨h1, h2, h3, h4⟩ := nonDigitStart_facts c t h
    rw [parseNumberRest,
      if_neg (show ¬((c :: t).head? = some '.') by simp [h2]),
      if_neg (show ¬((c :: t).head? = some 'e' ∨ (c :: t).head? = some 'E')
        by simp [h3, h4])]

theorem parseExpOpt_default (cs : List Char) (h : nonDigitStart cs = true) :
    parseExpOpt cs = some (none, cs) := by
  cases cs with
  | nil => rfl
  | cons c t =>
    obtain ⟨h1, h2, h3, h4⟩ := nonDigitStart_facts c t h
    rw [parseExpOpt,
      if_neg (show ¬((c :: t).head? = some 'e' ∨ (c :: t).head? = some 'E')
        by simp [h3, h4])]

theorem parseExpPart_run (b : Bool) (ds rest : List Char) (hne : ds ≠ [])
    (hds : ∀ c ∈ ds, c.isDigit = true)
    (hrest : ∀ c, rest.head? = some c → c.isDigit = false) :
    parseExpPart ((if b then '-' else '+') :: (ds ++ rest)) = some ((b, ds), rest) := by
  have hd := parseDigits_run ds rest hne hds hrest
  cases b
  · show parseExpPart ('+' :: (ds ++ rest)) = some ((false, ds), rest)
    rw [parseExpPart_plus, hd]
    rfl
  · show parseExpPart ('-' :: (ds ++ rest)) = some ((true, ds), rest)
    rw [parseExpPart_minus, hd]
    rfl

theorem parseExpOpt_exp (b : Bool) (ds rest : List Char) (hne : ds ≠ [])
    (hds : ∀ c ∈ ds, c.isDigit = true)
    (hrest : ∀ c, rest.head? = some c → c.isDigit = false) :
    parseExpOpt ('e' :: ((if b then '-' else '+') :: (ds ++ rest)))
      = some (some (b, ds), rest) := by
  rw [parseExpOpt_e, parseExpPart_run b ds rest hne hds hrest]
  rfl

theorem parseNumber_natDigits (neg : Bool) (n : Nat) (rest : List Char)
    (hrest : nonDigitStart rest = true) :
    parseNumber neg (natDigits n ++ rest) = some (intOfDigits neg (natDigits n), rest) := by
  have h1 := parseDigits_run (natDigits n) rest (natDigits_ne_nil n) (natDigits_isDigit n)
    (nonDigitStart_not_digit rest hrest)
  simp only [parseNumber, h1]
  exact parseNumberRest_default neg (natDigits n) rest hrest

theorem intOfDigits_natDigits (neg : Bool) (n : Nat) :
    intOfDigits neg (natDigits n)
      = if neg then Json.int (-(Int.ofNat n)) else Json.int (Int.ofNat n) := by
  rw [intOfDigits, digitsToNat_natDigits n 0]
  simp

/-- Round-trip for one float in `float.__repr__` form: parsing its printed
parts (followed by a tail that cannot extend the number) recovers the float
verbatim. -/
theorem parseNumber_float (neg : Bool) (ip fp : List Char)
    (ex : Option (Bool × List Char)) (rest : List Char)
    (hwf : PyFloat.wf ⟨neg, ip, fp, ex⟩ = true)
    (hrest : nonDigitStart rest = true) :
    parseNumber neg (ip ++ (pyFloatFracPart fp ++ (pyFloatExpPart ex ++ rest)))
      = some (.flt ⟨neg, ip, fp, ex⟩, rest) := by
  have hrest2 := nonDigitStart_not_digit rest hrest
  cases ex with
  | none =>
    rw [PyFloat.wf] at hwf
    simp only [Bool.and_eq_true, Bool.not_eq_true', List.all_eq_true,
      List.isEmpty_eq_false] at hwf
    obtain ⟨hip, hipd, hfpd, hfp⟩ := hwf
    rw [pyFloatFracPart_cons fp hfp,
      show pyFloatExpPart none = [] from rfl]
    simp only [List.nil_append, List.cons_append]
    have h1 : parseDigits (ip ++ '.' :: (fp ++ rest)) = some (ip, '.' :: (fp ++ rest)) :=
      parseDigits_run ip ('.' :: (fp ++ rest)) hip hipd
        (by intro c hc; simp only [List.head?_cons, Option.some.injEq] at hc;
            subst hc; decide)
    simp only [parseNumber, h1, parseNumberRest_dot,
      parseDigits_run fp rest hfp hfpd hrest2, parseExpOpt_default rest hrest]
  | some p =>
    obtain ⟨b, ds⟩ := p
    rw [PyFloat.wf] at hwf
    simp only [Bool.and_eq_true, Bool.not_eq_true', List.all_eq_true,
      List.isEmpty_eq_false] at hwf
    obtain ⟨hip, hipd, hfpd, hds, hdsd⟩ := hwf
    rw [show pyFloatExpPart (some (b, ds))
        = 'e' :: ((if b then '-' else '+') :: ds) from rfl]
    cases fp with
    | nil =>
      rw [show pyFloatFracPart [] = [] from rfl]
      simp only [List.nil_append, List.cons_append]
      have h1 : parseDigits (ip ++ 'e' :: ((if b then '-' else '+') :: (ds ++ rest)))
          = some (ip, 'e' :: ((if b then '-' else '+') :: (ds ++ rest))) :=
        parseDigits_run ip _ hip hipd
          (by intro c hc; simp only [List.head?_cons, Option.some.injEq] at hc;
              subst hc; decide)
      simp only [parseNumber, h1, parseNumberRest_e,
        parseExpPart_run b ds rest hds hdsd hrest2]
    | cons a t =>
      rw [pyFloatFracPart_cons (a :: t) (List.cons_ne_nil a t)]
      simp only [List.cons_append, List.append_assoc]
      have h1 : parseDigits
            (ip ++ '.' :: a :: (t ++ 'e' :: ((if b then '-' else '+') :: (ds ++ rest))))
          = some (ip, '.' :: a :: (t ++ 'e' :: ((if b then '-' else '+') :: (ds ++ rest)))) :=
        parseDigits_run ip _ hip hipd
          (by intro c hc; simp only [List.head?_cons, Option.some.injEq] at hc;
              subst hc; decide)
      have h2 := parseDigits_run (a :: t)
        ('e' :: ((if b then '-' else '+') :: (ds ++ rest))) (List.cons_ne_nil a t) hfpd
        (by intro c hc; simp only [List.head?_cons, Option.some.injEq] at hc;
            subst hc; decide)
      simp only [List.cons_append] at h2
      simp only [parseNumber, h1, parseNumberRest_dot, h2,
        parseExpOpt_exp b ds rest hds hdsd hrest2]

/-! ## Round-trip lemmas: strings -/

theorem unhexDigit_digitChar (d : Nat) (hd : d < 16) :
    unhexDigit (Nat.digitChar d) = some d := by
  interval_cases d <;> decide

theorem parseStringBody_escape (l : List Char) (rest : List Char) :
    parseStringBody ((l.map escapeChar).flatten ++ '"' :: rest) = some (l, rest) := by
  induction l with
  | nil =>
    rw [List.map_nil, List.flatten_nil, List.nil_append, parseStringBody.eq_def]
    simp
  | cons c l ih =>
    simp only [List.map_cons, List.flatten_cons, List.append_assoc]
    by_cases h1 : c = '"'
    · subst h1
      rw [escapeChar]
      simp only [if_pos rfl, List.cons_append, List.nil_append]
      rw [parseStringBody.eq_def]
      simp [escMap, ih]
    · by_cases h2 : c = '\\'
      · subst h2
        rw [escapeChar]
        simp only [if_neg h1, if_pos rfl, List.cons_append, List.nil_append]
        rw [parseStringBody.eq_def]
        simp [escMap, ih]
      · by_cases h3 : c = '\x08'
        · subst h3
          rw [escapeChar]
          simp only [if_neg h1, if_neg h2, if_pos rfl, List.cons_append, List.nil_append]
          rw [parseStringBody.eq_def]
          simp [escMap, ih]
        · by_cases h4 : c = '\x09'
          · subst h4
            rw [escapeChar]
            simp only [if_neg h1, if_neg h2, if_neg h3, if_pos rfl, List.cons_append,
              List.nil_append]
            rw [parseStringBody.eq_def]
            simp [escMap, ih]
          · by_cases h5 : c = '\x0a'
            · subst h5
              rw [escapeChar]
              simp only [if_neg h1, if_neg h2, if_neg h3, if_neg h4, if_pos rfl,
                List.cons_append, List.nil_append]
              rw [parseStringBody.eq_def]
              simp [escMap, ih]
            · by_cases h6 : c = '\x0c'
              · subst h6
                rw [escapeChar]
                simp only [if_neg h1, if_neg h2, if_neg h3, if_neg h4, if_neg h5,
                  if_pos rfl, List.cons_append, List.nil_append]
                rw [parseStringBody.eq_def]
                simp [escMap, ih]
              · by_cases h7 : c = '\x0d'
                · subst h7
                  rw [escapeChar]
                  simp only [if_neg h1, if_neg h2, if_neg h3, if_neg h4, if_neg h5,
                    if_neg h6, if_pos rfl, List.cons_append, List.nil_append]
                  rw [parseStringBody.eq_def]
                  simp [escMap, ih]
                · by_cases h8 : c.toNat < 32
                  · have hmod : c.toNat % 16 < 16 := Nat.mod_lt _ (by omega)
                    have hdiv : c.toNat / 16 < 16 := by omega
                    rw [escapeChar]
                    simp only [if_neg h1, if_neg h2, if_neg h3, if_neg h4, if_neg h5,
                      if_neg h6, if_neg h7, if_pos h8, List.cons_append, List.nil_append]
                    rw [parseStringBody.eq_def]
                    simp only [unhexDigit_digitChar _ hdiv, unhexDigit_digitChar _ hmod,
                      ih, reduceIte]
                    simp only [show unhexDigit '0' = some 0 from by decide, Option.map_some]
                    rw [show ((0 * 16 + 0) * 16 + c.toNat / 16) * 16 + c.toNat % 16 = c.toNat
                          from by omega, Char.ofNat_toNat]
                    simp
                  · rw [escapeChar]
                    simp only [if_neg h1, if_neg h2, if_neg h3, if_neg h4, if_neg h5,
                      if_neg h6, if_neg h7, if_neg h8, List.cons_append, List.nil_append]
                    rw [parseStringBody.eq_def]
                    simp [h1, h2, h8, ih]

/-! ## Fuel accounting for the parser -/

mutual

/-- Fuel sufficient for `parseValue` to consume the serialization of `j`. -/
def fuelV : Json → Nat
  | .null => 1
  | .bool _ => 1
  | .int _ => 1
  | .flt _ => 1
  | .str _ => 1
  | .arr l => 1 + fuelEs l
  | .obj l => 1 + fuelMs l

/-- Fuel sufficient for `parseElems` on the serialized items of an array. -/
def fuelEs : List Json → Nat
  | [] => 1
  | j :: l => 1 + max (fuelV j) (fuelEs l)

/-- Fuel sufficient below one object member. -/
def fuelMv : String × Json → Nat
  | (_, v) => 1 + fuelV v

/-- Fuel sufficient for `parseMembers` on the serialized members of an object. -/
def fuelMs : List (String × Json) → Nat
  | [] => 1
  | kv :: l => 1 + max (fuelMv kv) (fuelMs l)

end

theorem one_le_fuelV (j : Json) : 1 ≤ fuelV j := by
  cases j <;> simp [fuelV]

mutual

theorem fuelV_le : ∀ j : Json, jsonWf j = true → fuelV j ≤ (jdump j).length
  | .null => by simp [fuelV, jdump]
  | .bool b => by cases b <;> simp [fuelV, jdump]
  | .int n => by
    intro _
    have := List.length_pos.2 (jdump_ne_nil (Json.int n) rfl)
    simp only [fuelV]
    omega
  | .flt f => by
    intro hwf
    have := List.length_pos.2 (jdump_ne_nil (Json.flt f) hwf)
    simp only [fuelV]
    omega
  | .str s => by
    intro _
    have := List.length_pos.2 (jdump_ne_nil (Json.str s) rfl)
    simp only [fuelV]
    omega
  | .arr [] => by simp [fuelV, fuelEs, jdump]
  | .arr (j :: l) => by
    intro hwf
    simp only [jsonWf, jsonWfElems, Bool.and_eq_true] at hwf
    have := fuelEs_le j l hwf.1 hwf.2
    simp only [fuelV, jdump, List.length_cons, List.length_append,
      List.length_singleton]
    omega
  | .obj [] => by simp [fuelV, fuelMs, jdump]
  | .obj (kv :: l) => by
    intro hwf
    simp only [jsonWf, jsonWfMembers, Bool.and_eq_true] at hwf
    have := fuelMs_le kv l hwf.1 hwf.2
    simp only [fuelV, jdump, List.length_cons, List.length_append,
      List.length_singleton]
    omega
  termination_by j => sizeOf j
  decreasing_by all_goals (simp_wf <;> omega)

theorem fuelEs_le : ∀ (j : Json) (l : List Json), jsonWf j = true →
    jsonWfElems l = true →
    fuelEs (j :: l) ≤ 1 + ((jdump j).length + (jdumpElems l).length)
  | j, [] => by
    intro hwj _
    have h1 := fuelV_le j hwj
    simp only [fuelEs, jdumpElems, List.length_nil]
    rw [Nat.max_eq_left (one_le_fuelV j)]
    omega
  | j, j2 :: l2 => by
    intro hwj hwl
    simp only [jsonWfElems, Bool.and_eq_true] at hwl
    have h1 := fuelV_le j hwj
    have h2 := fuelEs_le j2 l2 hwl.1 hwl.2
    have h3 := List.length_pos.2 (jdump_ne_nil j hwj)
    simp only [fuelEs, jdumpElems, List.length_cons, List.length_append] at h2 ⊢
    omega
  termination_by j l => 1 + sizeOf j + sizeOf l
  decreasing_by all_goals (simp_wf <;> omega)

theorem fuelMs_le : ∀ (kv : String × Json) (l : List (String × Json)),
    jsonWf kv.2 = true → jsonWfMembers l = true →
    fuelMs (kv :: l) ≤ 1 + ((jdumpMember kv).length + (jdumpMembers l).length)
  | (k, v), [] => by
    intro hwv _
    have h1 := fuelV_le v hwv
    simp only [fuelMs, fuelMv, jdumpMember, jdumpMembers, List.length_nil,
      List.length_append, List.length_cons]
    omega
  | (k, v), kv2 :: l2 => by
    intro hwv hwl
    simp only [jsonWfMembers, Bool.and_eq_true] at hwl
    have h1 := fuelV_le v hwv
    have h2 := fuelMs_le kv2 l2 hwl.1 hwl.2
    simp only [fuelMs, fuelMv, jdumpMembers, jdumpMember, jdumpString,
      List.length_cons, List.length_append] at h2 ⊢
    omega
  termination_by kv l => 1 + sizeOf kv + sizeOf l
  decreasing_by all_goals (simp_wf <;> omega)

end

theorem parseStringBody_escapeString (s : String) (rest : List Char) :
    parseStringBody (escapeString s ++ '"' :: rest) = some (s.data, rest) :=
  parseStringBody_escape s.data rest

theorem jdump_head (j : Json) (hwf : jsonWf j = true) :
    ∃ d ds, jdump j = d :: ds ∧ d ≠ ']' ∧ d ≠ '\x7d' := by
  cases j with
  | null => exact ⟨'n', _, rfl, by decide, by decide⟩
  | bool b =>
    cases b
    · exact ⟨'f', _, rfl, by decide, by decide⟩
    · exact ⟨'t', _, rfl, by decide, by decide⟩
  | int n =>
    rw [jdump]
    split
    · exact ⟨'-', _, rfl, by decide, by decide⟩
    · cases h : natDigits n.natAbs with
      | nil => exact absurd h (natDigits_ne_nil _)
      | cons d ds =>
        have hd : d.isDigit = true := natDigits_isDigit _ d (h ▸ List.mem_cons_self d ds)
        refine ⟨d, ds, rfl, ?_, ?_⟩ <;> rintro rfl <;> exact absurd hd (by decide)
  | flt f =>
    obtain ⟨neg, ip, fp, ex⟩ := f
    simp only [jsonWf, PyFloat.wf, Bool.and_eq_true, Bool.not_eq_true',
      List.all_eq_true, List.isEmpty_eq_false] at hwf
    rw [jdump]
    cases neg with
    | true =>
      rw [pyFloatRepr_true]
      exact ⟨'-', _, rfl, by decide, by decide⟩
    | false =>
      rw [pyFloatRepr_false]
      cases hip : ip with
      | nil => exact absurd hip hwf.1
      | cons d ds =>
        have hd : d.isDigit = true := hwf.2.1 d (hip ▸ List.mem_cons_self d ds)
        subst hip
        refine ⟨d, ds ++ (pyFloatFracPart fp ++ pyFloatExpPart ex), rfl, ?_, ?_⟩
          <;> rintro rfl <;> exact absurd hd (by decide)
  | str s => exact ⟨'"', _, rfl, by decide, by decide⟩
  | arr l =>
    cases l
    · exact ⟨'[', _, rfl, by decide, by decide⟩
    · exact ⟨'[', _, rfl, by decide, by decide⟩
  | obj l =>
    cases l
    · exact ⟨'\x7b', _, rfl, by decide, by decide⟩
    · exact ⟨'\x7b', _, rfl, by decide, by decide⟩

/-- Round-trip: parsing the serialization of a well-formed document
(followed by any tail that cannot extend a number literal) returns the
document and the tail. -/
theorem parse_dump : ∀ fuel : Nat,
    (∀ (j : Json) (rest : List Char), jsonWf j = true → fuelV j ≤ fuel →
      nonDigitStart rest = true →
      parseValue fuel (jdump j ++ rest) = some (j, rest)) ∧
    (∀ (j : Json) (l : List Json) (rest : List Char), jsonWf j = true →
      jsonWfElems l = true → fuelEs (j :: l) ≤ fuel →
      parseElems fuel ((jdump j ++ jdumpElems l) ++ ']' :: rest) = some (j :: l, rest)) ∧
    (∀ (kv : String × Json) (l : List (String × Json)) (rest : List Char),
      jsonWf kv.2 = true → jsonWfMembers l = true → fuelMs (kv :: l) ≤ fuel →
      parseMembers fuel ((jdumpMember kv ++ jdumpMembers l) ++ '\x7d' :: rest)
        = some (kv :: l, rest)) := by
  intro fuel
  induction fuel with
  | zero =>
    refine ⟨?_, ?_, ?_⟩
    · intro j rest _ hfuel _
      have := one_le_fuelV j
      omega
    · intro j l rest _ _ hfuel
      rw [fuelEs] at hfuel
      omega
    · intro kv l rest _ _ hfuel
      rw [fuelMs] at hfuel
      omega
  | succ fuel ih =>
    obtain ⟨ihV, ihE, ihM⟩ := ih
    refine ⟨?_, ?_, ?_⟩
    · intro j rest hwf hfuel hrest
      cases j with
      | null => simp [jdump, parseValue]
      | bool b => cases b <;> simp [jdump, parseValue]
      | int n =>
        cases n with
        | ofNat m =>
          rw [jdump, if_neg (by exact Int.not_lt.2 (Int.ofNat_nonneg m))]
          cases h : natDigits (Int.ofNat m).natAbs with
          | nil => exact absurd h (natDigits_ne_nil _)
          | cons d ds =>
            have hd : d.isDigit = true := natDigits_isDigit _ d (h ▸ List.mem_cons_self d ds)
            have hpd : parseNumber false (natDigits (Int.ofNat m).natAbs ++ rest)
                = some (.int (Int.ofNat m), rest) := by
              rw [show (Int.ofNat m).natAbs = m from by simp]
              rw [parseNumber_natDigits false m rest hrest, intOfDigits_natDigits]
              simp
            rw [h] at hpd
            simp only [List.cons_append] at hpd ⊢
            simp [parseValue, hd, hpd]
        | negSucc m =>
          rw [jdump, if_pos (Int.negSucc_lt_zero m), Int.natAbs_negSucc]
          have hpd : parseNumber true (natDigits (m + 1) ++ rest)
              = some (.int (-(Int.ofNat (m + 1))), rest) := by
            rw [parseNumber_natDigits true (m + 1) rest hrest, intOfDigits_natDigits]
            simp
          simp only [List.cons_append]
          simp [parseValue, hpd]
          simp only [Int.negSucc_eq]
          omega
      | flt f =>
        obtain ⟨neg, ip, fp, ex⟩ := f
        have hwf2 : PyFloat.wf ⟨neg, ip, fp, ex⟩ = true := by
          simpa [jsonWf] using hwf
        have hmain := parseNumber_float neg ip fp ex rest hwf2 hrest
        have hip : ip ≠ [] ∧ ∀ c ∈ ip, c.isDigit = true := by
          rw [PyFloat.wf] at hwf2
          simp only [Bool.and_eq_true, Bool.not_eq_true', List.all_eq_true,
            List.isEmpty_eq_false] at hwf2
          exact ⟨hwf2.1, hwf2.2.1⟩
        rw [jdump]
        cases neg with
        | false =>
          rw [pyFloatRepr_false]
          cases hipc : ip with
          | nil => exact absurd hipc hip.1
          | cons d ds =>
            have hd : d.isDigit = true := hip.2 d (hipc ▸ List.mem_cons_self d ds)
            subst hipc
            simp only [List.cons_append, List.append_assoc] at hmain ⊢
            simp [parseValue, hd, hmain]
        | true =>
          rw [pyFloatRepr_true]
          simp only [List.cons_append, List.append_assoc] at hmain ⊢
          simp [parseValue, hmain]
      | str s =>
        rw [jdump, jdumpString]
        simp only [List.cons_append, List.append_assoc, List.singleton_append]
        simp [parseValue, parseStringBody_escapeString s rest]
      | arr l =>
        cases l with
        | nil => simp [jdump, parseValue]
        | cons j1 l =>
          rw [jdump]
          simp only [jsonWf, jsonWfElems, Bool.and_eq_true] at hwf
          have hfe : fuelEs (j1 :: l) ≤ fuel := by
            rw [fuelV] at hfuel
            omega
          have helems := ihE j1 l rest hwf.1 hwf.2 hfe
          obtain ⟨d, ds, hd, hd1, hd2⟩ := jdump_head j1 hwf.1
          rw [hd] at helems ⊢
          simp only [List.cons_append, List.append_assoc, List.singleton_append,
            List.nil_append] at helems ⊢
          simp [parseValue, hd1, helems]
      | obj l =>
        cases l with
        | nil => simp [jdump, parseValue]
        | cons kv l =>
          rw [jdump]
          simp only [jsonWf, jsonWfMembers, Bool.and_eq_true] at hwf
          have hfm : fuelMs (kv :: l) ≤ fuel := by
            rw [fuelV] at hfuel
            omega
          have hmems := ihM kv l rest hwf.1 hwf.2 hfm
          obtain ⟨k, v⟩ := kv
          rw [jdumpMember, jdumpString] at hmems ⊢
          simp only [List.cons_append, List.append_assoc, List.singleton_append,
            List.nil_append] at hmems ⊢
          simp [parseValue, hmems]
    · intro j l rest hwj hwl hfuel
      have hfv : fuelV j ≤ fuel := by
        rw [fuelEs] at hfuel
        omega
      cases l with
      | nil =>
        have hval := ihV j (']' :: rest) hwj hfv rfl
        simp only [jdumpElems, List.append_nil]
        simp [parseElems, hval]
      | cons j2 l2 =>
        simp only [jsonWfElems, Bool.and_eq_true] at hwl
        have hfe2 : fuelEs (j2 :: l2) ≤ fuel := by
          rw [fuelEs] at hfuel
          omega
        have hval := ihV j
          (',' :: ' ' :: ((jdump j2 ++ jdumpElems l2) ++ ']' :: rest)) hwj hfv rfl
        have helems2 := ihE j2 l2 rest hwl.1 hwl.2 hfe2
        simp only [jdumpElems, List.cons_append, List.append_assoc] at hval helems2 ⊢
        simp [parseElems, hval, helems2]
    · intro kv l rest hwv hwl hfuel
      obtain ⟨k, v⟩ := kv
      have hfv : fuelV v ≤ fuel := by
        rw [fuelMs, fuelMv] at hfuel
        omega
      have hnds : nonDigitStart (jdumpMembers l ++ '\x7d' :: rest) = true := by
        cases l <;> simp [jdumpMembers, nonDigitStart]
      have hval := ihV v (jdumpMembers l ++ '\x7d' :: rest) hwv hfv hnds
      have hkey := parseStringBody_escapeString k
        (':' :: ' ' :: (jdump v ++ (jdumpMembers l ++ '\x7d' :: rest)))
      cases l with
      | nil =>
        rw [jdumpMember, jdumpString]
        simp only [jdumpMembers, List.append_nil, List.cons_append,
          List.append_assoc, List.singleton_append, List.nil_append] at hval hkey ⊢
        simp [parseMembers, hkey, hval]
      | cons kv2 l2 =>
        simp only [jsonWfMembers, Bool.and_eq_true] at hwl
        have hfm2 : fuelMs (kv2 :: l2) ≤ fuel := by
          rw [fuelMs] at hfuel
          omega
        have hmems2 := ihM kv2 l2 rest hwl.1 hwl.2 hfm2
        rw [jdumpMember, jdumpString]
        simp only [jdumpMembers, List.cons_append, List.append_assoc,
          List.singleton_append, List.nil_append] at hval hkey hmems2 ⊢
        simp [parseMembers, hkey, hval, hmems2]

/-- Round-trip of one JSONL line: deserializing the serialization of any
well-formed document returns the document (field for field). -/
theorem jsonParse_jdumps (j : Json) (hwf : jsonWf j = true) :
    jsonParse (jdumps j) = some j := by
  have hfv : fuelV j ≤ (jdump j).length + 1 := le_trans (fuelV_le j hwf) (by omega)
  have h := (parse_dump ((jdump j).length + 1)).1 j [] hwf hfv rfl
  rw [List.append_nil] at h
  rw [jsonParse, jdumps]
  rw [show (String.mk (jdump j)).length = (jdump j).length from rfl,
    show (String.mk (jdump j)).data = jdump j from rfl, h]

/-! ## The serializer emits no newline characters -/

theorem digitChar_ne_newline (d : Nat) (hd : d < 16) : Nat.digitChar d ≠ '\x0a' := by
  interval_cases d <;> decide

theorem newline_notin_natDigits (n : Nat) : '\x0a' ∉ natDigits n := by
  intro h
  exact absurd (natDigits_isDigit n _ h) (by decide)

theorem isDigit_ne_newline (c : Char) (h : c.isDigit = true) : c ≠ '\x0a' := by
  rintro rfl
  exact absurd h (by decide)

theorem newline_notin_fracPart (fp : List Char) (h : ∀ c ∈ fp, c.isDigit = true) :
    '\x0a' ∉ pyFloatFracPart fp := by
  rw [pyFloatFracPart]
  split
  · exact List.not_mem_nil _
  · intro hmem
    rcases List.mem_cons.1 hmem with h1 | h1
    · exact absurd h1 (by decide)
    · exact isDigit_ne_newline _ (h _ h1) rfl

theorem newline_notin_expPart (ex : Option (Bool × List Char))
    (h : ∀ p, ex = some p → ∀ c ∈ p.2, c.isDigit = true) :
    '\x0a' ∉ pyFloatExpPart ex := by
  cases ex with
  | none => exact List.not_mem_nil _
  | some p =>
    obtain ⟨b, ds⟩ := p
    intro hmem
    rw [show pyFloatExpPart (some (b, ds))
        = 'e' :: ((if b then '-' else '+') :: ds) from rfl] at hmem
    rcases List.mem_cons.1 hmem with h1 | h1
    · exact absurd h1 (by decide)
    · rcases List.mem_cons.1 h1 with h2 | h2
      · cases b with
        | true => exact absurd h2 (by decide)
        | false => exact absurd h2 (by decide)
      · exact isDigit_ne_newline _ (h (b, ds) rfl _ h2) rfl

theorem newline_notin_pyFloatRepr (f : PyFloat) (hwf : f.wf = true) :
    '\x0a' ∉ pyFloatRepr f := by
  obtain ⟨neg, ip, fp, ex⟩ := f
  have hparts : (∀ c ∈ ip, c.isDigit = true) ∧ (∀ c ∈ fp, c.isDigit = true) ∧
      (∀ p, ex = some p → ∀ c ∈ p.2, c.isDigit = true) := by
    cases ex with
    | none =>
      rw [PyFloat.wf] at hwf
      simp only [Bool.and_eq_true, List.all_eq_true] at hwf
      exact ⟨hwf.2.1, hwf.2.2.1, fun p hp => by simp at hp⟩
    | some p =>
      rw [PyFloat.wf] at hwf
      simp only [Bool.and_eq_true, List.all_eq_true] at hwf
      refine ⟨hwf.2.1, hwf.2.2.1, fun q hq => ?_⟩
      injection hq with h2
      subst h2
      exact hwf.2.2.2.2
  intro hmem
  cases neg with
  | false =>
    rw [pyFloatRepr_false] at hmem
    rcases List.mem_append.1 hmem with h | h
    · exact isDigit_ne_newline _ (hparts.1 _ h) rfl
    · rcases List.mem_append.1 h with h | h
      · exact newline_notin_fracPart fp hparts.2.1 h
      · exact newline_notin_expPart ex hparts.2.2 h
  | true =>
    rw [pyFloatRepr_true] at hmem
    rcases List.mem_cons.1 hmem with h | h
    · exact absurd h (by decide)
    · rcases List.mem_append.1 h with h | h
      · exact isDigit_ne_newline _ (hparts.1 _ h) rfl
      · rcases List.mem_append.1 h with h | h
        · exact newline_notin_fracPart fp hparts.2.1 h
        · exact newline_notin_expPart ex hparts.2.2 h

theorem newline_notin_escapeChar (c : Char) : '\x0a' ∉ escapeChar c := by
  rw [escapeChar]
  split
  · decide
  · split
    · decide
    · split
      · decide
      · split
        · decide
        · split
          · decide
          · split
            · decide
            · split
              · decide
              · split
                · rename_i h8
                  intro hmem
                  simp only [List.mem_cons, List.not_mem_nil, or_false,
                    or_assoc] at hmem
                  rcases hmem with h | h | h | h | h | h
                  · exact absurd h (by decide)
                  · exact absurd h (by decide)
                  · exact absurd h (by decide)
                  · exact absurd h (by decide)
                  · exact digitChar_ne_newline (c.toNat / 16) (by omega) h.symm
                  · exact digitChar_ne_newline (c.toNat % 16) (Nat.mod_lt _ (by omega)) h.symm
                · rename_i h1 _ _ _ h5 _ _ _
                  intro hmem
                  rw [List.mem_singleton] at hmem
                  exact h5 hmem.symm

theorem newline_notin_escapeString (s : String) : '\x0a' ∉ escapeString s := by
  intro h
  rw [escapeString, List.mem_flatten] at h
  obtain ⟨l, hl, hmem⟩ := h
  rw [List.mem_map] at hl
  obtain ⟨c, _, rfl⟩ := hl
  exact newline_notin_escapeChar c hmem

theorem newline_notin_jdumpString (s : String) : '\x0a' ∉ jdumpString s := by
  rw [jdumpString]
  simp only [List.mem_cons, List.mem_append, List.mem_singleton]
  rintro (h | h | h)
  · exact absurd h (by decide)
  · exact newline_notin_escapeString s h
  · exact absurd h (by decide)

mutual

theorem jdump_no_newline : ∀ j : Json, jsonWf j = true → '\x0a' ∉ jdump j
  | .null => by intro _; decide
  | .bool b => by intro _; cases b <;> decide
  | .int n => by
    intro _
    rw [jdump]
    split
    · simp only [List.mem_cons]
      rintro (h | h)
      · exact absurd h (by decide)
      · exact newline_notin_natDigits _ h
    · exact newline_notin_natDigits _
  | .flt f => by
    intro hwf
    rw [jdump]
    exact newline_notin_pyFloatRepr f (by simpa [jsonWf] using hwf)
  | .str s => by
    intro _
    rw [jdump]
    exact newline_notin_jdumpString s
  | .arr [] => by intro _; decide
  | .arr (j :: l) => by
    intro hwf
    simp only [jsonWf, jsonWfElems, Bool.and_eq_true] at hwf
    have h1 := jdump_no_newline j hwf.1
    have h2 := jdumpElems_no_newline l hwf.2
    rw [jdump]
    simp only [List.mem_cons, List.mem_append, List.mem_singleton, or_assoc]
    rintro (h | h | h | h)
    · exact absurd h (by decide)
    · exact h1 h
    · exact h2 h
    · exact absurd h (by decide)
  | .obj [] => by intro _; decide
  | .obj (kv :: l) => by
    intro hwf
    simp only [jsonWf, jsonWfMembers, Bool.and_eq_true] at hwf
    have h1 := jdumpMember_no_newline kv hwf.1
    have h2 := jdumpMembers_no_newline l hwf.2
    rw [jdump]
    simp only [List.mem_cons, List.mem_append, List.mem_singleton, or_assoc]
    rintro (h | h | h | h)
    · exact absurd h (by decide)
    · exact h1 h
    · exact h2 h
    · exact absurd h (by decide)
  termination_by j => sizeOf j
  decreasing_by all_goals (simp_wf <;> omega)

theorem jdumpElems_no_newline : ∀ l : List Json, jsonWfElems l = true →
    '\x0a' ∉ jdumpElems l
  | [] => by intro _; simp [jdumpElems]
  | j :: l => by
    intro hwf
    simp only [jsonWfElems, Bool.and_eq_true] at hwf
    have h1 := jdump_no_newline j hwf.1
    have h2 := jdumpElems_no_newline l hwf.2
    rw [jdumpElems]
    simp only [List.mem_cons, List.mem_append, or_assoc]
    rintro (h | h | h | h)
    · exact absurd h (by decide)
    · exact absurd h (by decide)
    · exact h1 h
    · exact h2 h
  termination_by l => sizeOf l
  decreasing_by all_goals (simp_wf <;> omega)

theorem jdumpMember_no_newline : ∀ kv : String × Json, jsonWf kv.2 = true →
    '\x0a' ∉ jdumpMember kv
  | (k, v) => by
    intro hwf
    have h1 := jdump_no_newline v hwf
    rw [jdumpMember]
    simp only [List.mem_append, List.mem_cons, or_assoc]
    rintro (h | h | h | h)
    · exact newline_notin_jdumpString k h
    · exact absurd h (by decide)
    · exact absurd h (by decide)
    · exact h1 h
  termination_by kv => sizeOf kv
  decreasing_by all_goals (simp_wf <;> omega)

theorem jdumpMembers_no_newline : ∀ l : List (String × Json), jsonWfMembers l = true →
    '\x0a' ∉ jdumpMembers l
  | [] => by intro _; simp [jdumpMembers]
  | kv :: l => by
    intro hwf
    simp only [jsonWfMembers, Bool.and_eq_true] at hwf
    have h1 := jdumpMember_no_newline kv hwf.1
    have h2 := jdumpMembers_no_newline l hwf.2
    rw [jdumpMembers]
    simp only [List.mem_cons, List.mem_append, or_assoc]
    rintro (h | h | h | h)
    · exact absurd h (by decide)
    · exact absurd h (by decide)
    · exact h1 h
    · exact h2 h
  termination_by l => sizeOf l
  decreasing_by all_goals (simp_wf <;> omega)

end

/-! ## The Page Fetcher and the Pagination Driver (`iter_pages`)

The HTTP session is modelled as a function of the two query parameters the
loop varies, `$skip` and `$top`; a response carries the HTTP status code, the
response text (used for the error excerpt) and the decoded `value` array
(`payload.get("value", [])`). -/

/-- One decoded HTTP response from the WHO API. -/
structure PageResp where
  status : Nat
  text : String
  value : List Rec

/-- One fetch call recorded in a run's trace: the cursor (`$skip`) and page
size (`$top`) requested, the status received, and how many records the page
held (0 for a non-success response). -/
structure FetchCall where
  skip : Nat
  top : Nat
  status : Nat
  got : Nat
deriving DecidableEq, Repr

/-- How a pagination run ended: normal termination (empty page or exhausted
row cap), the `RuntimeError` raised on a non-200 status (carrying the status
and the truncated body excerpt `resp.text[:500]`), or fuel exhaustion (an
artifact of the embedding; never reached with enough fuel). -/
inductive PageEnd where
  | done : PageEnd
  | failed : Nat → String → PageEnd
  | fuelOut : PageEnd
deriving DecidableEq, Repr

/-- The page size to request at one step of `iter_pages`, or `none` when the
loop returns before fetching: `top = page_size`; if `max_rows` is set,
`remaining = max_rows - fetched`; return when `remaining <= 0`, else
`top = min(top, remaining)`. -/
def topFor (page_size : Nat) (max_rows : Option Nat) (fetched : Nat) : Option Nat :=
  match max_rows with
  | none => some page_size
  | some m => if m - fetched = 0 then none else some (min page_size (m - fetched))

/-- The loop of `iter_pages`, with explicit `fetched` and `skip` state and
fuel. Returns the yielded records in order, the trace of fetch calls, and how
the run ended. A non-200 response raises (no records from that response are
yielded); an empty page ends the run; otherwise the page's records are
yielded and `fetched` and `skip` both advance by `len(rows)`. The inter-page
`time.sleep` pacing has no observable effect here and is not modelled. -/
def iterPagesLoop (session : Nat → Nat → PageResp) (page_size : Nat)
    (max_rows : Option Nat) : Nat → Nat → Nat → List Rec × List FetchCall × PageEnd
  | 0, _, _ => ([], [], .fuelOut)
  | fuel + 1, fetched, skip =>
    match topFor page_size max_rows fetched with
    | none => ([], [], .done)
    | some top =>
      let resp := session skip top
      if resp.status ≠ 200 then
        ([], [⟨skip, top, resp.status, 0⟩], .failed resp.status (resp.text.take 500))
      else if resp.value.isEmpty then
        ([], [⟨skip, top, resp.status, 0⟩], .done)
      else
        let pr := iterPagesLoop session page_size max_rows fuel
          (fetched + resp.value.length) (skip + resp.value.length)
        (resp.value ++ pr.1, ⟨skip, top, resp.status, resp.value.length⟩ :: pr.2.1, pr.2.2)

/-- The function `iter_pages`: the whole pagination run, starting from `fetched = 0`,
`skip = 0`. -/
def iter_pages (session : Nat → Nat → PageResp) (page_size : Nat)
    (max_rows : Option Nat) (fuel : Nat) : List Rec × List FetchCall × PageEnd :=
  iterPagesLoop session page_size max_rows fuel 0 0

/-- An honest OData backend over a fixed result set: `$skip`/`$top` select
the corresponding window of `avail`, always with status 200. -/
def odataSession (avail : List Rec) : Nat → Nat → PageResp :=
  fun skip top => ⟨200, "", (avail.drop skip).take top⟩

/-! ## The Raw Sink (`write_jsonl`) -/

/-- The write loop of `write_jsonl`: for each record, write
`json.dumps(r, ensure_ascii=False)` and a newline, and count it. -/
def writeJsonlLoop : List Rec → List String → Nat → List String × Nat
  | [], acc, n => (acc, n)
  | r :: rest, acc, n =>
    writeJsonlLoop rest (acc ++ [jdumps (Json.obj r) ++ "\n"]) (n + 1)

/-- The function `write_jsonl`: returns the written units (one per record, in order) and
the count of rows written. -/
def write_jsonl (rows : List Rec) : List String × Nat :=
  writeJsonlLoop rows [] 0

/-- A raw-only ingestion run (`main` without `--snowflake`): the records the
Pagination Driver yields before terminating or raising are exactly the lines
the Raw Sink has written when the run ends, since each yielded record is
written before the next page is fetched and a raised error propagates out of
the generator. -/
def runIngestRaw (session : Nat → Nat → PageResp) (page_size : Nat)
    (max_rows : Option Nat) (fuel : Nat) : List String × Nat × PageEnd :=
  let pr := iter_pages session page_size max_rows fuel
  let w := write_jsonl pr.1
  (w.1, w.2, pr.2.2)

theorem writeJsonlLoop_spec (rows : List Rec) : ∀ (acc : List String) (n : Nat),
    writeJsonlLoop rows acc n
      = (acc ++ rows.map (fun r => jdumps (Json.obj r) ++ "\n"), n + rows.length) := by
  induction rows with
  | nil => intro acc n; simp [writeJsonlLoop]
  | cons r rest ih =>
    intro acc n
    rw [writeJsonlLoop, ih]
    simp only [Prod.mk.injEq, List.map_cons, List.length_cons, List.append_assoc,
      List.singleton_append]
    exact ⟨trivial, by omega⟩

theorem write_jsonl_spec (rows : List Rec) :
    write_jsonl rows
      = (rows.map (fun r => jdumps (Json.obj r) ++ "\n"), rows.length) := by
  rw [write_jsonl, writeJsonlLoop_spec]
  simp

/-! ## Warehouse configuration (`get_snowflake_config`)

The process environment is modelled as a function `String → Option String`
(`os.getenv`); Python's `if not value:` treats both an unset variable and an
empty string as missing. -/

/-- The required environment variables, in the source's dict order, with the
config key each maps to. -/
def env_map : List (String × String) :=
  [("SNOWFLAKE_ACCOUNT", "account"), ("SNOWFLAKE_USER", "user"),
   ("SNOWFLAKE_PASSWORD", "password"), ("SNOWFLAKE_WAREHOUSE", "warehouse"),
   ("SNOWFLAKE_DATABASE", "database"), ("SNOWFLAKE_SCHEMA", "schema")]

/-- The optional environment variables. -/
def optional_env_map : List (String × String) :=
  [("SNOWFLAKE_ROLE", "role")]

/-- One step of the required-variable loop: a present nonempty value is added
to the config, anything else appends the variable name to `missing`. -/
def configStep (env : String → Option String)
    (acc : List (String × String) × List String)
    (kv : String × String) : List (String × String) × List String :=
  match env kv.1 with
  | some v => if v = "" then (acc.1, acc.2 ++ [kv.1]) else (acc.1 ++ [(kv.2, v)], acc.2)
  | none => (acc.1, acc.2 ++ [kv.1])

/-- The function `get_snowflake_config`: collects required and optional variables and
raises `RuntimeError("Missing Snowflake env vars: ...")` when any required
variable is unset or empty. -/
def get_snowflake_config (env : String → Option String) :
    Except String (List (String × String)) :=
  let st := env_map.foldl (configStep env) ([], [])
  let config := optional_env_map.foldl (fun c kv =>
    match env kv.1 with
    | some v => if v = "" then c else c ++ [(kv.2, v)]
    | none => c) st.1
  if st.2 = [] then .ok config
  else .error ("Missing Snowflake env vars: " ++ String.intercalate ", " st.2)

/-! ## The Warehouse Sink (`write_jsonl_and_snowflake`)

The warehouse connection is modelled by an event trace (table creation, one
event per `executemany` insert call, commit, close) plus two failure
injection points: `connectOk` (does `snowflake.connector.connect` succeed)
and `insertOk k` (does the `k`-th insert call succeed). The record stream is
the list of records the generator yields together with `streamOk`: when
`false`, the generator raises after its last yielded record (as `iter_pages`
does on a non-200 response). The `try/finally` of the source closes the
connection on every exit path after a successful connect. -/

/-- Python `row.get("Id")`: the value under the exact key, or `None`. -/
def dictGet (row : Rec) (key : String) : Option Json :=
  List.lookup key row

/-- One row bound for the multi-row insert:
`(indicator, ingest_date, row.get("Id"), payload)`. -/
structure SFRow where
  indicator : String
  ingest_date : String
  id : Option Json
  payload : String

/-- One observable warehouse action. -/
inductive SFEvent where
  | ensureTable : String → SFEvent
  | insert : String → List SFRow → SFEvent
  | commit : SFEvent
  | close : SFEvent

/-- The row appended to the in-memory batch for one record. -/
def toSFRow (indicator ingest_date : String) (row : Rec) : SFRow :=
  ⟨indicator, ingest_date, dictGet row "Id", jdumps (Json.obj row)⟩

/-- The state of the dual-sink loop: lines written to the local file, events
issued so far, the in-memory batch, the row count `n`, the number of insert
calls made `k`, and whether all inserts so far succeeded. -/
structure SinkState where
  lines : List String
  events : List SFEvent
  batch : List SFRow
  n : Nat
  k : Nat
  ok : Bool

/-- The `for row in rows` loop of `write_jsonl_and_snowflake`: write the
serialized row and a newline, append to the batch, bump `n`; when the batch
reaches `batch_size`, issue one insert for the whole batch and clear it. A
failing insert raises, ending the loop with `ok = false`. -/
def sinkLoop (table indicator ingest_date : String) (batch_size : Nat)
    (insertOk : Nat → Bool) :
    List Rec → Nat → Nat → List String → List SFEvent → List SFRow → SinkState
  | [], n, k, lines, events, batch => ⟨lines, events, batch, n, k, true⟩
  | row :: rest, n, k, lines, events, batch =>
    let payload := jdumps (Json.obj row)
    let lines' := lines ++ [payload ++ "\n"]
    let batch' := batch ++ [toSFRow indicator ingest_date row]
    if batch_size ≤ batch'.length then
      let events' := events ++ [SFEvent.insert table batch']
      if insertOk k then
        sinkLoop table indicator ingest_date batch_size insertOk rest
          (n + 1) (k + 1) lines' events' []
      else ⟨lines', events', [], n + 1, k + 1, false⟩
    else
      sinkLoop table indicator ingest_date batch_size insertOk rest
        (n + 1) k lines' events batch'

/-- The observable outcome of one dual-sink run: the local file's lines
(`none` when the file was never opened), the warehouse event trace, and the
returned count or the raised error. -/
structure SinkOutcome where
  file : Option (List String)
  events : List SFEvent
  result : Except String Nat

/-- The function `write_jsonl_and_snowflake`: read the warehouse configuration, connect,
then (inside `try ... finally conn.close()`) create the table if absent, open
the local file and run the write loop; flush a nonempty trailing batch, and
commit only after the entire stream was consumed and every insert succeeded.
The configuration and the connection are acquired before the file is opened;
a raised error after a successful connect still closes the connection. -/
def write_jsonl_and_snowflake (env : String → Option String) (connectOk : Bool)
    (insertOk : Nat → Bool) (table_name indicator ingest_date : String)
    (batch_size : Nat) (rows : List Rec) (streamOk : Bool) : SinkOutcome :=
  match get_snowflake_config env with
  | .error msg => ⟨none, [], .error msg⟩
  | .ok _config =>
    if connectOk then
      let st := sinkLoop table_name indicator ingest_date batch_size insertOk rows
        0 0 [] [SFEvent.ensureTable table_name] []
      if st.ok then
        if streamOk then
          if st.batch.isEmpty then
            ⟨some st.lines, st.events ++ [SFEvent.commit, SFEvent.close], .ok st.n⟩
          else
            let events' := st.events ++ [SFEvent.insert table_name st.batch]
            if insertOk st.k then
              ⟨some st.lines, events' ++ [SFEvent.commit, SFEvent.close], .ok st.n⟩
            else ⟨some st.lines, events' ++ [SFEvent.close], .error "insert failed"⟩
        else ⟨some st.lines, st.events ++ [SFEvent.close], .error "stream failed"⟩
      else ⟨some st.lines, st.events ++ [SFEvent.close], .error "insert failed"⟩
    else ⟨none, [], .error "connect failed"⟩

/-- The batches of the insert calls in a trace, in order. -/
def insertedBatches (events : List SFEvent) : List (List SFRow) :=
  events.filterMap fun e =>
    match e with
    | .insert _ b => some b
    | _ => none

/-! ## Pagination lemmas -/

theorem list_take_add {α : Type} (l : List α) (a b : Nat) :
    l.take (a + b) = l.take a ++ (l.drop a).take b := by
  rw [List.take_drop]
  conv_rhs =>
    rw [show l.take a = (l.take (a + b)).take a from by
      rw [List.take_take, min_eq_left (by omega)]]
  rw [List.take_append_drop]

theorem iterPagesLoop_odata_none (avail : List Rec) (ps : Nat) (hps : 1 ≤ ps) :
    ∀ (fuel fetched s : Nat), avail.length - s + 1 ≤ fuel →
      (iterPagesLoop (odataSession avail) ps none fuel fetched s).1 = avail.drop s ∧
      (iterPagesLoop (odataSession avail) ps none fuel fetched s).2.2 = PageEnd.done := by
  intro fuel
  induction fuel with
  | zero => intro fetched s h; omega
  | succ fuel ih =>
    intro fetched s h
    rw [iterPagesLoop]
    simp only [topFor, odataSession]
    by_cases hnil : (avail.drop s).take ps = []
    · have hd : avail.drop s = [] := by
        rcases List.take_eq_nil_iff.1 hnil with h0 | h0
        · omega
        · exact h0
      simp [hnil, hd, List.isEmpty_iff]
    · have hLpos : 1 ≤ ((avail.drop s).take ps).length :=
        List.length_pos.2 hnil
      have hs : s < avail.length := by
        by_contra hcon
        exact hnil (List.take_eq_nil_of_eq_nil (List.drop_eq_nil_of_le (by omega)))
      have hfuel2 : avail.length - (s + ((avail.drop s).take ps).length) + 1 ≤ fuel := by
        omega
      have ihr := ih (fetched + ((avail.drop s).take ps).length)
        (s + ((avail.drop s).take ps).length) hfuel2
      simp only [List.isEmpty_iff, hnil, if_false, ite_false, if_neg,
        reduceIte] at *
      refine ⟨?_, ?_⟩
      · show (avail.drop s).take ps
            ++ (iterPagesLoop (odataSession avail) ps none fuel
              (fetched + ((avail.drop s).take ps).length)
              (s + ((avail.drop s).take ps).length)).1
            = avail.drop s
        rw [ihr.1]
        rw [show avail.drop (s + ((avail.drop s).take ps).length)
              = (avail.drop s).drop ((avail.drop s).take ps).length from by
            rw [List.drop_drop]]
        rw [List.length_take]
        by_cases hle : (avail.drop s).length ≤ ps
        · rw [min_eq_right hle, List.drop_length, List.take_of_length_le hle,
            List.append_nil]
        · rw [min_eq_left (by omega)]
          exact List.take_append_drop ps (avail.drop s)
      · exact ihr.2

theorem iterPagesLoop_odata_some (avail : List Rec) (ps m : Nat) (hps : 1 ≤ ps) :
    ∀ (fuel s : Nat), avail.length - s + 1 ≤ fuel →
      (iterPagesLoop (odataSession avail) ps (some m) fuel s s).1
        = (avail.drop s).take (m - s) ∧
      (iterPagesLoop (odataSession avail) ps (some m) fuel s s).2.2 = PageEnd.done := by
  intro fuel
  induction fuel with
  | zero => intro s h; omega
  | succ fuel ih =>
    intro s h
    rw [iterPagesLoop]
    simp only [topFor]
    by_cases hquit : m - s = 0
    · simp [hquit]
    · rw [if_neg hquit]
      simp only [odataSession]
      by_cases hnil : (avail.drop s).take (min ps (m - s)) = []
      · have hd : avail.drop s = [] := by
          rcases List.take_eq_nil_iff.1 hnil with h0 | h0
          · omega
          · exact h0
        simp [hnil, hd, List.isEmpty_iff, List.take_eq_nil_of_eq_nil]
      · have hLpos : 1 ≤ ((avail.drop s).take (min ps (m - s))).length :=
          List.length_pos.2 hnil
        have hs : s < avail.length := by
          by_contra hcon
          exact hnil (List.take_eq_nil_of_eq_nil (List.drop_eq_nil_of_le (by omega)))
        have hfuel2 :
            avail.length - (s + ((avail.drop s).take (min ps (m - s))).length) + 1
              ≤ fuel := by
          omega
        have ihr := ih (s + ((avail.drop s).take (min ps (m - s))).length) hfuel2
        simp only [List.isEmpty_iff, hnil, if_false, ite_false, if_neg, reduceIte]
        refine ⟨?_, ?_⟩
        · show (avail.drop s).take (min ps (m - s))
              ++ (iterPagesLoop (odataSession avail) ps (some m) fuel
                (s + ((avail.drop s).take (min ps (m - s))).length)
                (s + ((avail.drop s).take (min ps (m - s))).length)).1
              = (avail.drop s).take (m - s)
          rw [ihr.1]
          rw [show avail.drop (s + ((avail.drop s).take (min ps (m - s))).length)
                = (avail.drop s).drop ((avail.drop s).take (min ps (m - s))).length
              from by rw [List.drop_drop]]
          rw [List.length_take]
          by_cases hle : (avail.drop s).length ≤ min ps (m - s)
          · rw [min_eq_right hle, List.drop_length, List.take_nil,
              List.take_of_length_le hle,
              List.take_of_length_le (le_trans hle (Nat.min_le_right ps (m - s))),
              List.append_nil]
          · rw [min_eq_left (le_of_not_le hle)]
            rw [show m - (s + min ps (m - s)) = (m - s) - min ps (m - s) from by omega]
            rw [← list_take_add]
            congr 1
            have := Nat.min_le_right ps (m - s)
            omega
        · exact ihr.2

/-- The cursor discipline of a trace: starting from `acc`, every fetch call
uses as its cursor exactly the number of records received before it, and the
cursor advances by each call's received count. -/
def cursorSpec : Nat → List FetchCall → Prop
  | _, [] => True
  | acc, c :: rest => c.skip = acc ∧ cursorSpec (acc + c.got) rest

theorem iterPagesLoop_cursor (session : Nat → Nat → PageResp) (ps : Nat)
    (cap : Option Nat) : ∀ (fuel fetched s : Nat),
    cursorSpec s (iterPagesLoop session ps cap fuel fetched s).2.1 ∧
    List.Chain' (fun a b => a.skip < b.skip)
      (iterPagesLoop session ps cap fuel fetched s).2.1 := by
  intro fuel
  induction fuel with
  | zero => intro fetched s; simp [iterPagesLoop, cursorSpec]
  | succ fuel ih =>
    intro fetched s
    rw [iterPagesLoop]
    split
    · simp [cursorSpec]
    · rename_i top htop
      by_cases hst : (session s top).status ≠ 200
      · rw [if_pos hst]
        simp [cursorSpec]
      · rw [if_neg hst]
        by_cases hnil : (session s top).value.isEmpty
        · rw [if_pos hnil]
          simp [cursorSpec]
        · rw [if_neg hnil]
          have ihr := ih (fetched + (session s top).value.length)
            (s + (session s top).value.length)
          have hLpos : 1 ≤ (session s top).value.length := by
            have hne : (session s top).value ≠ [] := by
              intro hcon
              rw [hcon] at hnil
              exact hnil rfl
            exact List.length_pos.2 hne
          refine ⟨⟨rfl, ihr.1⟩, ?_⟩
          rw [List.chain'_cons']
          refine ⟨?_, ihr.2⟩
          intro b hb
          cases htr : (iterPagesLoop session ps cap fuel
              (fetched + (session s top).value.length)
              (s + (session s top).value.length)).2.1 with
          | nil => rw [htr] at hb; simp at hb
          | cons d tr' =>
            rw [htr] at hb
            simp only [List.head?_cons, Option.mem_def, Option.some.injEq] at hb
            subst hb
            have hc := ihr.1
            rw [htr] at hc
            rw [hc.1]
            show s < s + (session s top).value.length
            omega

theorem iterPagesLoop_clamped (session : Nat → Nat → PageResp) (ps m : Nat) :
    ∀ (fuel s : Nat), ∀ c ∈ (iterPagesLoop session ps (some m) fuel s s).2.1,
      c.top = min ps (m - c.skip) ∧ c.skip + c.top ≤ m := by
  intro fuel
  induction fuel with
  | zero => intro s c hc; simp [iterPagesLoop] at hc
  | succ fuel ih =>
    intro s c hc
    rw [iterPagesLoop] at hc
    split at hc
    · simp at hc
    · rename_i top htop
      rw [topFor] at htop
      by_cases hquit : m - s = 0
      · rw [if_pos hquit] at htop
        exact absurd htop (by simp)
      · rw [if_neg hquit] at htop
        have htop2 : top = min ps (m - s) := by
          simpa using htop.symm
        subst htop2
        have hmin : s + min ps (m - s) ≤ m := by
          have := Nat.min_le_right ps (m - s)
          omega
        by_cases hst : (session s (min ps (m - s))).status ≠ 200
        · rw [if_pos hst] at hc
          rw [List.mem_singleton] at hc
          subst hc
          exact ⟨rfl, hmin⟩
        · rw [if_neg hst] at hc
          by_cases hnil : (session s (min ps (m - s))).value.isEmpty
          · rw [if_pos hnil] at hc
            rw [List.mem_singleton] at hc
            subst hc
            exact ⟨rfl, hmin⟩
          · rw [if_neg hnil] at hc
            rw [List.mem_cons] at hc
            rcases hc with hc | hc
            · subst hc
              exact ⟨rfl, hmin⟩
            · exact ih (s + (session s (min ps (m - s))).value.length) c hc

theorem iterPagesLoop_stops_on_empty (session : Nat → Nat → PageResp) (ps : Nat)
    (cap : Option Nat) : ∀ (fuel fetched s : Nat) (recs : List Rec)
    (trace : List FetchCall) (e : PageEnd)
    (pre : List FetchCall) (c : FetchCall) (suf : List FetchCall),
    iterPagesLoop session ps cap fuel fetched s = (recs, trace, e) →
    trace = pre ++ c :: suf → c.status = 200 → c.got = 0 →
    suf = [] ∧ e = PageEnd.done := by
  intro fuel
  induction fuel with
  | zero =>
    intro fetched s recs trace e pre c suf heq htr
    rw [iterPagesLoop] at heq
    simp only [Prod.mk.injEq] at heq
    rw [← heq.2.1] at htr
    simp at htr
  | succ fuel ih =>
    intro fetched s recs trace e pre c suf heq htr hst hgot
    rw [iterPagesLoop] at heq
    split at heq
    · simp only [Prod.mk.injEq] at heq
      rw [← heq.2.1] at htr
      simp at htr
    · rename_i top htop
      by_cases hs : (session s top).status ≠ 200
      · rw [if_pos hs] at heq
        simp only [Prod.mk.injEq] at heq
        rw [← heq.2.1] at htr
        cases pre with
        | nil =>
          simp only [List.nil_append, List.cons.injEq] at htr
          rw [← htr.1] at hst
          exact absurd hst hs
        | cons p pre' =>
          simp only [List.cons_append, List.cons.injEq] at htr
          exact absurd htr.2 (by simp)
      · rw [if_neg hs] at heq
        by_cases hnil : (session s top).value.isEmpty
        · rw [if_pos hnil] at heq
          simp only [Prod.mk.injEq] at heq
          rw [← heq.2.1] at htr
          cases pre with
          | nil =>
            simp only [List.nil_append, List.cons.injEq] at htr
            exact ⟨htr.2.symm, heq.2.2.symm⟩
          | cons p pre' =>
            simp only [List.cons_append, List.cons.injEq] at htr
            exact absurd htr.2 (by simp)
        · rw [if_neg hnil] at heq
          have hLpos : 1 ≤ (session s top).value.length := by
            have hne : (session s top).value ≠ [] := by
              intro hcon
              rw [hcon] at hnil
              exact hnil rfl
            exact List.length_pos.2 hne
          simp only [Prod.mk.injEq] at heq
          rw [← heq.2.1] at htr
          cases pre with
          | nil =>
            simp only [List.nil_append, List.cons.injEq] at htr
            have := htr.1
            rw [← this] at hgot
            simp only at hgot
            omega
          | cons p pre' =>
            simp only [List.cons_append, List.cons.injEq] at htr
            have hres := ih (fetched + (session s top).value.length)
              (s + (session s top).value.length)
              (iterPagesLoop session ps cap fuel
                (fetched + (session s top).value.length)
                (s + (session s top).value.length)).1
              (iterPagesLoop session ps cap fuel
                (fetched + (session s top).value.length)
                (s + (session s top).value.length)).2.1
              (iterPagesLoop session ps cap fuel
                (fetched + (session s top).value.length)
                (s + (session s top).value.length)).2.2
              pre' c suf rfl htr.2 hst hgot
            exact ⟨hres.1, heq.2.2 ▸ hres.2⟩

/-! ## Warehouse Sink lemmas -/

theorem div_ceil_eq (N bs : Nat) (hbs : 1 ≤ bs) :
    N / bs + (if N % bs = 0 then 0 else 1) = (N + bs - 1) / bs := by
  have hq := Nat.div_add_mod N bs
  have hmlt : N % bs < bs := Nat.mod_lt _ (by omega)
  rcases Nat.eq_zero_or_pos (N % bs) with h | h
  · rw [if_pos h]
    rw [show N + bs - 1 = bs * (N / bs) + (bs - 1) from by omega]
    rw [Nat.mul_add_div (by omega), Nat.div_eq_of_lt (show bs - 1 < bs by omega)]
  · rw [if_neg (by omega)]
    have h3 : bs * (N / bs + 1) = bs * (N / bs) + bs := by ring
    rw [show N + bs - 1 = bs * (N / bs + 1) + (N % bs - 1) from by omega]
    rw [Nat.mul_add_div (by omega), Nat.div_eq_of_lt (show N % bs - 1 < bs by omega)]

theorem sinkLoop_ok_spec (table ind date : String) (bs : Nat) (hbs : 1 ≤ bs) :
    ∀ (rest : List Rec) (n k : Nat) (lines : List String) (events : List SFEvent)
      (batch : List SFRow), batch.length < bs →
    (sinkLoop table ind date bs (fun _ => true) rest n k lines events batch).ok = true ∧
    (sinkLoop table ind date bs (fun _ => true) rest n k lines events batch).lines
      = lines ++ rest.map (fun r => jdumps (Json.obj r) ++ "\n") ∧
    (sinkLoop table ind date bs (fun _ => true) rest n k lines events batch).n
      = n + rest.length ∧
    (sinkLoop table ind date bs (fun _ => true) rest n k lines events batch).k
      = k + (batch.length + rest.length) / bs ∧
    (sinkLoop table ind date bs (fun _ => true) rest n k lines events batch).batch.length
      = (batch.length + rest.length) % bs ∧
    ∃ ins : List (List SFRow),
      (sinkLoop table ind date bs (fun _ => true) rest n k lines events batch).events
        = events ++ ins.map (SFEvent.insert table) ∧
      (∀ b ∈ ins, b.length = bs) ∧
      ins.length = (batch.length + rest.length) / bs ∧
      ins.flatten
          ++ (sinkLoop table ind date bs (fun _ => true) rest n k lines events batch).batch
        = batch ++ rest.map (toSFRow ind date) := by
  intro rest
  induction rest with
  | nil =>
    intro n k lines events batch hb
    rw [sinkLoop]
    refine ⟨rfl, by simp, by simp, ?_, ?_, [], by simp, by simp, ?_, by simp⟩
    · show k = k + (batch.length + 0) / bs
      rw [Nat.add_zero, Nat.div_eq_of_lt hb, Nat.add_zero]
    · show batch.length = (batch.length + 0) % bs
      rw [Nat.add_zero, Nat.mod_eq_of_lt hb]
    · show ([] : List (List SFRow)).length = (batch.length + 0) / bs
      rw [Nat.add_zero, Nat.div_eq_of_lt hb]
      rfl
  | cons row rest ih =>
    intro n k lines events batch hb
    rw [sinkLoop]
    simp only []
    by_cases hfull : bs ≤ (batch ++ [toSFRow ind date row]).length
    · have hlen : (batch ++ [toSFRow ind date row]).length = bs := by
        simp only [List.length_append, List.length_singleton] at hfull ⊢
        omega
      rw [if_pos hfull]
      simp only [show (fun _ : Nat => true) k = true from rfl, if_pos rfl, ite_true,
        reduceIte]
      have ihr := ih (n + 1) (k + 1)
        (lines ++ [jdumps (Json.obj row) ++ "\n"])
        (events ++ [SFEvent.insert table (batch ++ [toSFRow ind date row])]) []
        (by simp only [List.length_nil]; omega)
      obtain ⟨hok, hlines, hn, hk, hbatch, ins', hievents, hilen, hicount, hijoin⟩ := ihr
      refine ⟨hok, ?_, ?_, ?_, ?_,
        (batch ++ [toSFRow ind date row]) :: ins', ?_, ?_, ?_, ?_⟩
      · rw [hlines]
        simp [List.append_assoc]
      · rw [hn]
        simp only [List.length_cons]
        omega
      · rw [hk]
        simp only [List.length_nil, Nat.zero_add, List.length_cons]
        have hdiv : (bs + rest.length) / bs = rest.length / bs + 1 := by
          rw [Nat.add_comm]
          exact Nat.add_div_right _ (by omega)
        simp only [List.length_append, List.length_singleton] at hlen
        rw [show batch.length + (rest.length + 1) = bs + rest.length from by omega, hdiv]
        omega
      · rw [hbatch]
        simp only [List.length_nil, Nat.zero_add, List.length_cons]
        simp only [List.length_append, List.length_singleton] at hlen
        rw [show batch.length + (rest.length + 1) = bs + rest.length from by omega]
        rw [Nat.add_mod_left]
      · rw [hievents]
        simp [List.append_assoc]
      · intro b hbmem
        rcases List.mem_cons.1 hbmem with hbm | hbm
        · rw [hbm, hlen]
        · exact hilen b hbm
      · simp only [List.length_cons, hicount, List.length_nil, Nat.zero_add]
        simp only [List.length_append, List.length_singleton] at hlen
        have hdiv : (bs + rest.length) / bs = rest.length / bs + 1 := by
          rw [Nat.add_comm]
          exact Nat.add_div_right _ (by omega)
        rw [show batch.length + (rest.length + 1) = bs + rest.length from by omega, hdiv]
      · simp only [List.flatten_cons, List.append_assoc]
        rw [hijoin]
        simp [List.map_cons]
    · rw [if_neg hfull]
      have hlt : (batch ++ [toSFRow ind date row]).length < bs := by omega
      have ihr := ih (n + 1) k (lines ++ [jdumps (Json.obj row) ++ "\n"]) events
        (batch ++ [toSFRow ind date row]) hlt
      obtain ⟨hok, hlines, hn, hk, hbatch, ins', hievents, hilen, hicount, hijoin⟩ := ihr
      refine ⟨hok, ?_, ?_, ?_, ?_, ins', hievents, hilen, ?_, ?_⟩
      · rw [hlines]
        simp [List.append_assoc]
      · rw [hn]
        simp only [List.length_cons]
        omega
      · have harith : (batch ++ [toSFRow ind date row]).length + rest.length
            = batch.length + (row :: rest).length := by
          simp only [List.length_append, List.length_cons, List.length_nil]
          omega
        rw [hk, harith]
      · have harith : (batch ++ [toSFRow ind date row]).length + rest.length
            = batch.length + (row :: rest).length := by
          simp only [List.length_append, List.length_cons, List.length_nil]
          omega
        rw [hbatch, harith]
      · have harith : (batch ++ [toSFRow ind date row]).length + rest.length
            = batch.length + (row :: rest).length := by
          simp only [List.length_append, List.length_cons, List.length_nil]
          omega
        rw [hicount, harith]
      · rw [hijoin]
        simp [List.append_assoc, List.map_cons]

theorem sinkLoop_events_mono (table ind date : String) (bs : Nat)
    (insertOk : Nat → Bool) :
    ∀ (rest : List Rec) (n k : Nat) (lines : List String) (events : List SFEvent)
      (batch : List SFRow),
    ∃ new : List SFEvent,
      (sinkLoop table ind date bs insertOk rest n k lines events batch).events
        = events ++ new ∧
      ∀ e ∈ new, ∃ b, e = SFEvent.insert table b := by
  intro rest
  induction rest with
  | nil =>
    intro n k lines events batch
    exact ⟨[], by rw [sinkLoop]; simp, by simp⟩
  | cons row rest ih =>
    intro n k lines events batch
    rw [sinkLoop]
    simp only []
    by_cases hfull : bs ≤ (batch ++ [toSFRow ind date row]).length
    · rw [if_pos hfull]
      by_cases hins : insertOk k = true
      · rw [if_pos hins]
        obtain ⟨new', hnew', hprop⟩ := ih (n + 1) (k + 1)
          (lines ++ [jdumps (Json.obj row) ++ "\n"])
          (events ++ [SFEvent.insert table (batch ++ [toSFRow ind date row])]) []
        refine ⟨SFEvent.insert table (batch ++ [toSFRow ind date row]) :: new', ?_, ?_⟩
        · rw [hnew']
          simp
        · intro e he
          rcases List.mem_cons.1 he with h | h
          · exact ⟨_, h⟩
          · exact hprop e h
      · rw [if_neg hins]
        refine ⟨[SFEvent.insert table (batch ++ [toSFRow ind date row])], by simp, ?_⟩
        intro e he
        rw [List.mem_singleton] at he
        exact ⟨_, he⟩
    · rw [if_neg hfull]
      exact ih (n + 1) k (lines ++ [jdumps (Json.obj row) ++ "\n"]) events
        (batch ++ [toSFRow ind date row])

/-! ## Concrete fixtures used by the witnesses -/

/-- A five-record result set. -/
def availEx : List Rec :=
  [[("Id", Json.str "r0")], [("Id", Json.str "r1")], [("Id", Json.str "r2")],
   [("Id", Json.str "r3")], [("Id", Json.str "r4")]]

/-- A one-record result set. -/
def availOne : List Rec := [[("Id", Json.str "r0")]]

def recA : Rec := [("Id", Json.str "a"), ("NumericValue", Json.int 1)]

def recB : Rec := [("Id", Json.str "b"), ("NumericValue", Json.int 2)]

/-- A record carrying floats in the shapes `float.__repr__` produces: a plain
decimal (`66.4`), a negative decimal (`-0.5`), scientific notation with a
negative exponent (`1.5e-05`) and with a positive exponent and no fraction
(`1e+16`). -/
def recF : Rec :=
  [("Id", Json.str "f"),
   ("NumericValue", Json.flt ⟨false, ['6', '6'], ['4'], none⟩),
   ("Low", Json.flt ⟨true, ['0'], ['5'], none⟩),
   ("High", Json.flt ⟨false, ['1'], ['5'], some (true, ['0', '5'])⟩),
   ("Scale", Json.flt ⟨false, ['1'], [], some (false, ['1', '6'])⟩)]

def errBody : String := "Internal Server Error"

/-- A backend whose first page (cursor 0) succeeds with two records and whose
second page fails with HTTP 500. -/
def failSecondPageSession : Nat → Nat → PageResp :=
  fun skip _top => if skip = 0 then ⟨200, "", [recA, recB]⟩ else ⟨500, errBody, []⟩

/-- An environment holding every required warehouse variable. -/
def goodEnv : String → Option String := fun k =>
  if k = "SNOWFLAKE_ACCOUNT" then some "acct"
  else if k = "SNOWFLAKE_USER" then some "user"
  else if k = "SNOWFLAKE_PASSWORD" then some "pw"
  else if k = "SNOWFLAKE_WAREHOUSE" then some "wh"
  else if k = "SNOWFLAKE_DATABASE" then some "db"
  else if k = "SNOWFLAKE_SCHEMA" then some "sch"
  else none

/-- The environment `goodEnv` with the password unset. -/
def badEnv : String → Option String := fun k =>
  if k = "SNOWFLAKE_PASSWORD" then none else goodEnv k

/-! ## Claims -/

/-- Claim C1 (amended): over an honest OData backend, for every page size > 0
and enough fuel, `iter_pages` yields `avail.take m` under a row cap `m` (so
exactly `min (total available) m` records) and all available records when no
cap is set, and it terminates normally; the yielded sequence is empty iff the
cap is 0 **or no records are available**. (The claim's original "empty iff
the cap is 0" fails when the API has no records; see the counterexample.) -/
theorem c1_pagination_count (avail : List Rec) (ps : Nat) (cap : Option Nat)
    (fuel : Nat) (hps : 1 ≤ ps) (hfuel : avail.length + 1 ≤ fuel) :
    (iter_pages (odataSession avail) ps cap fuel).1
      = (match cap with | some m => avail.take m | none => avail) ∧
    (iter_pages (odataSession avail) ps cap fuel).1.length
      = (match cap with | some m => min avail.length m | none => avail.length) ∧
    (iter_pages (odataSession avail) ps cap fuel).2.2 = PageEnd.done ∧
    ((iter_pages (odataSession avail) ps cap fuel).1 = []
      ↔ cap = some 0 ∨ avail = []) := by
  cases cap with
  | none =>
    have h := iterPagesLoop_odata_none avail ps hps fuel 0 0 (by omega)
    rw [iter_pages] at *
    rw [List.drop_zero] at h
    refine ⟨h.1, by rw [h.1], h.2, ?_⟩
    rw [h.1]
    simp
  | some m =>
    have h := iterPagesLoop_odata_some avail ps m hps fuel 0 (by omega)
    rw [iter_pages] at *
    rw [List.drop_zero, Nat.sub_zero] at h
    refine ⟨h.1, ?_, h.2, ?_⟩
    · rw [h.1, List.length_take, Nat.min_comm]
    · rw [h.1, List.take_eq_nil_iff]
      simp

/-- Claim C1, counterexample to the claim as stated: with five rows of cap
but an empty result set, the yielded sequence is empty although the cap is
not 0, so "the yielded sequence is empty iff the cap is 0" is false. -/
theorem c1_pagination_count_counterexample :
    ¬(((iter_pages (odataSession ([] : List Rec)) 1 (some 5) 6).1 = [])
        ↔ (some 5 : Option Nat) = some 0) := by
  intro h
  exact absurd (h.mp rfl) (by decide)

/-- Claim C1, witness: five available records, page size 2, cap 3. -/
theorem c1_pagination_count_witness :
    (iter_pages (odataSession availEx) 2 (some 3) 10).1 = availEx.take 3 ∧
    (iter_pages (odataSession availEx) 2 (some 3) 10).2.2 = PageEnd.done :=
  ⟨(c1_pagination_count availEx 2 (some 3) 10 (by omega) (by decide)).1,
   (c1_pagination_count availEx 2 (some 3) 10 (by omega) (by decide)).2.2.1⟩

/-- Claim C4: when the second page returns HTTP 500, the run yields exactly
the first page's records and ends with the `RemoteError` carrying status 500
and the truncated body excerpt; the raw file then contains exactly the two
serialized records of the first (successful) page — not zero and not later
pages. -/
theorem c4_http_error_second_page :
    iter_pages failSecondPageSession 2 none 10
      = ([recA, recB],
         [⟨0, 2, 200, 2⟩, ⟨2, 2, 500, 0⟩],
         PageEnd.failed 500 (errBody.take 500)) ∧
    runIngestRaw failSecondPageSession 2 none 10
      = ([jdumps (Json.obj recA) ++ "\n", jdumps (Json.obj recB) ++ "\n"], 2,
         PageEnd.failed 500 (errBody.take 500)) := by
  constructor <;> rfl

/-- Claim C5: in every run (any backend, page size, cap and fuel), the fetch
trace's cursors start at 0 and each equals the cumulative count of records
received before that fetch; the cursor sequence is strictly increasing and no
cursor value repeats. -/
theorem c5_cursor_monotone (session : Nat → Nat → PageResp) (ps : Nat)
    (cap : Option Nat) (fuel : Nat) :
    cursorSpec 0 (iter_pages session ps cap fuel).2.1 ∧
    List.Chain' (fun a b => a.skip < b.skip) (iter_pages session ps cap fuel).2.1 ∧
    ((iter_pages session ps cap fuel).2.1.map FetchCall.skip).Nodup := by
  have h := iterPagesLoop_cursor session ps cap fuel 0 0
  refine ⟨h.1, h.2, ?_⟩
  have hchain : List.Chain' (· < ·)
      ((iter_pages session ps cap fuel).2.1.map FetchCall.skip) :=
    (List.chain'_map FetchCall.skip).2 h.2
  have hpair := List.chain'_iff_pairwise.1 hchain
  exact hpair.imp ne_of_lt

/-- Claim C6: under a row cap `m`, every fetch call requests exactly the
configured page size clamped to the cap's remaining headroom
(`top = min page_size (m - cursor)`), so `cursor + top` never exceeds the
cap. -/
theorem c6_page_size_clamped (session : Nat → Nat → PageResp) (ps m fuel : Nat) :
    ∀ c ∈ (iter_pages session ps (some m) fuel).2.1,
      c.top = min ps (m - c.skip) ∧ c.skip + c.top ≤ m :=
  fun c hc => iterPagesLoop_clamped session ps m fuel 0 c hc

/-- Claim C6, witness (spec scenario B): five records, page size 2, cap 3 —
the second fetch call requests page size 1 (the clamped headroom), not 2. -/
theorem c6_page_size_clamped_witness :
    (⟨2, 1, 200, 1⟩ : FetchCall).top
        = min 2 (3 - (⟨2, 1, 200, 1⟩ : FetchCall).skip) ∧
    (⟨2, 1, 200, 1⟩ : FetchCall).skip + (⟨2, 1, 200, 1⟩ : FetchCall).top ≤ 3 :=
  c6_page_size_clamped (odataSession availEx) 2 3 10 ⟨2, 1, 200, 1⟩ (by decide)

/-- Claim C7: the Raw Sink writes one newline-terminated line per record, in
order, counting them; for every well-formed record (`jsonWf`: its floats are
in `float.__repr__` form, as every record decoded by `resp.json()` is), the
line's payload deserializes back to a document equal field-for-field to the
record that produced it — ints, floats, strings, nulls, bools, arrays and
objects all reproduced verbatim, so no precision loss — and the payload
itself contains no newline (so each record occupies exactly one line). -/
theorem c7_raw_sink_roundtrip (rows : List Rec) :
    (write_jsonl rows).1 = rows.map (fun r => jdumps (Json.obj r) ++ "\n") ∧
    (write_jsonl rows).2 = rows.length ∧
    ∀ r ∈ rows, jsonWf (Json.obj r) = true →
      jsonParse (jdumps (Json.obj r)) = some (Json.obj r)
        ∧ '\x0a' ∉ (jdumps (Json.obj r)).data := by
  refine ⟨congrArg Prod.fst (write_jsonl_spec rows),
    congrArg Prod.snd (write_jsonl_spec rows), ?_⟩
  intro r _ hwf
  exact ⟨jsonParse_jdumps (Json.obj r) hwf, jdump_no_newline (Json.obj r) hwf⟩

/-- Claim C7, witness: a record holding floats in all the repr shapes
(`66.4`, `-0.5`, `1.5e-05`, `1e+16`) round-trips field-for-field and
serializes without a newline. -/
theorem c7_raw_sink_roundtrip_witness :
    jsonParse (jdumps (Json.obj recF)) = some (Json.obj recF)
      ∧ '\x0a' ∉ (jdumps (Json.obj recF)).data :=
  (c7_raw_sink_roundtrip [recF]).2.2 recF (List.mem_singleton.2 rfl) (by decide)

/-- Claim C8: whenever some fetch call in the trace received a successful
empty page, it is the last fetch call of the run (no further fetch is issued)
and the run ends normally, regardless of the row cap. -/
theorem c8_stop_on_empty (session : Nat → Nat → PageResp) (ps : Nat)
    (cap : Option Nat) (fuel : Nat) (recs : List Rec) (trace : List FetchCall)
    (e : PageEnd) (pre : List FetchCall) (c : FetchCall) (suf : List FetchCall)
    (heq : iter_pages session ps cap fuel = (recs, trace, e))
    (htr : trace = pre ++ c :: suf) (hok : c.status = 200) (hempty : c.got = 0) :
    suf = [] ∧ e = PageEnd.done :=
  iterPagesLoop_stops_on_empty session ps cap fuel 0 0 recs trace e pre c suf
    heq htr hok hempty

/-- Claim C8, witness: one record then an empty page — the empty page's call
is last and the run ends normally. -/
theorem c8_stop_on_empty_witness :
    ([] : List FetchCall) = [] ∧
    (iter_pages (odataSession availOne) 1 none 5).2.2 = PageEnd.done :=
  c8_stop_on_empty (odataSession availOne) 1 none 5
    (iter_pages (odataSession availOne) 1 none 5).1
    (iter_pages (odataSession availOne) 1 none 5).2.1
    (iter_pages (odataSession availOne) 1 none 5).2.2
    [⟨0, 1, 200, 1⟩] ⟨1, 1, 200, 0⟩ [] rfl rfl rfl rfl

theorem insertedBatches_map_insert (table : String) (ins : List (List SFRow)) :
    insertedBatches (ins.map (SFEvent.insert table)) = ins := by
  rw [insertedBatches, List.filterMap_map]
  rw [show ((fun e => match e with | SFEvent.insert _ b => some b | _ => none)
        ∘ SFEvent.insert table) = some from by funext b; rfl]
  rw [List.filterMap_some]

/-- Claim C2: on the success path, the Warehouse Sink issues exactly
`ceil(N / batch_size)` insert calls for `N` records, every insert call except
possibly the last carries exactly `batch_size` rows, no insert call is ever
empty (the trailing partial batch is flushed only when nonempty), and the
function returns `N`. -/
theorem c2_insert_batching (env : String → Option String)
    (cfg : List (String × String)) (table ind date : String) (bs : Nat)
    (rows : List Rec) (hcfg : get_snowflake_config env = Except.ok cfg)
    (hbs : 1 ≤ bs) :
    (insertedBatches (write_jsonl_and_snowflake env true (fun _ => true)
        table ind date bs rows true).events).length
      = (rows.length + bs - 1) / bs ∧
    (∀ b ∈ (insertedBatches (write_jsonl_and_snowflake env true (fun _ => true)
        table ind date bs rows true).events).dropLast, b.length = bs) ∧
    (∀ b ∈ insertedBatches (write_jsonl_and_snowflake env true (fun _ => true)
        table ind date bs rows true).events, b.length ≠ 0 ∧ b.length ≤ bs) ∧
    (write_jsonl_and_snowflake env true (fun _ => true)
        table ind date bs rows true).result = Except.ok rows.length := by
  obtain ⟨hok, hlines, hn, hk, hbatch, ins, hievents, hilen, hicount, hijoin⟩ :=
    sinkLoop_ok_spec table ind date bs hbs rows 0 0 []
      [SFEvent.ensureTable table] [] (by simp only [List.length_nil]; omega)
  simp only [List.length_nil, Nat.zero_add] at hn hk hbatch hicount
  have hceil := div_ceil_eq rows.length bs hbs
  rw [write_jsonl_and_snowflake, hcfg]
  simp only [if_pos rfl, reduceIte, hok, ite_true]
  by_cases hmod : rows.length % bs = 0
  · have hempty : (sinkLoop table ind date bs (fun _ => true) rows 0 0 []
        [SFEvent.ensureTable table] []).batch = [] := by
      rw [← List.length_eq_zero, hbatch, hmod]
    rw [hempty]
    simp only [List.isEmpty_nil, ite_true, reduceIte]
    rw [if_pos hmod] at hceil
    refine ⟨?_, ?_, ?_, ?_⟩
    · rw [insertedBatches, List.filterMap_append, ← insertedBatches,
        ← insertedBatches, hievents, insertedBatches, List.filterMap_append,
        ← insertedBatches, ← insertedBatches, insertedBatches_map_insert]
      rw [show insertedBatches [SFEvent.ensureTable table] = [] from rfl,
        show insertedBatches [SFEvent.commit, SFEvent.close] = [] from rfl]
      rw [List.nil_append, List.append_nil, hicount]
      omega
    · intro b hb
      rw [insertedBatches, List.filterMap_append, ← insertedBatches,
        ← insertedBatches, hievents, insertedBatches, List.filterMap_append,
        ← insertedBatches, ← insertedBatches, insertedBatches_map_insert] at hb
      rw [show insertedBatches [SFEvent.ensureTable table] = [] from rfl,
        show insertedBatches [SFEvent.commit, SFEvent.close] = [] from rfl] at hb
      rw [List.nil_append, List.append_nil] at hb
      exact hilen b ((List.dropLast_sublist ins).subset hb)
    · intro b hb
      rw [insertedBatches, List.filterMap_append, ← insertedBatches,
        ← insertedBatches, hievents, insertedBatches, List.filterMap_append,
        ← insertedBatches, ← insertedBatches, insertedBatches_map_insert] at hb
      rw [show insertedBatches [SFEvent.ensureTable table] = [] from rfl,
        show insertedBatches [SFEvent.commit, SFEvent.close] = [] from rfl] at hb
      rw [List.nil_append, List.append_nil] at hb
      have := hilen b hb
      constructor <;> omega
    · rw [hn]
  · have hne : (sinkLoop table ind date bs (fun _ => true) rows 0 0 []
        [SFEvent.ensureTable table] []).batch ≠ [] := by
      intro hc
      rw [hc] at hbatch
      simp only [List.length_nil] at hbatch
      omega
    rw [if_neg (by rw [List.isEmpty_iff]; exact hne)]
    simp only [ite_true, reduceIte]
    rw [if_neg hmod] at hceil
    have hbs2 : (sinkLoop table ind date bs (fun _ => true) rows 0 0 []
        [SFEvent.ensureTable table] []).batch.length ≤ bs := by
      rw [hbatch]
      have := Nat.mod_lt rows.length (show 0 < bs by omega)
      omega
    refine ⟨?_, ?_, ?_, ?_⟩
    · rw [insertedBatches, List.filterMap_append, List.filterMap_append,
        ← insertedBatches, ← insertedBatches, ← insertedBatches, hievents,
        insertedBatches, List.filterMap_append, ← insertedBatches,
        ← insertedBatches, insertedBatches_map_insert]
      rw [show insertedBatches [SFEvent.ensureTable table] = [] from rfl,
        show insertedBatches [SFEvent.commit, SFEvent.close] = [] from rfl]
      simp only [List.nil_append, List.append_nil]
      rw [show insertedBatches [SFEvent.insert table
          ((sinkLoop table ind date bs (fun _ => true) rows 0 0 []
            [SFEvent.ensureTable table] []).batch)]
        = [(sinkLoop table ind date bs (fun _ => true) rows 0 0 []
            [SFEvent.ensureTable table] []).batch] from rfl]
      rw [List.length_append, hicount]
      simp only [List.length_singleton]
      omega
    · intro b hb
      rw [insertedBatches, List.filterMap_append, List.filterMap_append,
        ← insertedBatches, ← insertedBatches, ← insertedBatches, hievents,
        insertedBatches, List.filterMap_append, ← insertedBatches,
        ← insertedBatches, insertedBatches_map_insert] at hb
      rw [show insertedBatches [SFEvent.ensureTable table] = [] from rfl,
        show insertedBatches [SFEvent.commit, SFEvent.close] = [] from rfl] at hb
      simp only [List.nil_append, List.append_nil] at hb
      rw [show insertedBatches [SFEvent.insert table
          ((sinkLoop table ind date bs (fun _ => true) rows 0 0 []
            [SFEvent.ensureTable table] []).batch)]
        = [(sinkLoop table ind date bs (fun _ => true) rows 0 0 []
            [SFEvent.ensureTable table] []).batch] from rfl] at hb
      rw [List.dropLast_concat] at hb
      exact hilen b hb
    · intro b hb
      rw [insertedBatches, List.filterMap_append, List.filterMap_append,
        ← insertedBatches, ← insertedBatches, ← insertedBatches, hievents,
        insertedBatches, List.filterMap_append, ← insertedBatches,
        ← insertedBatches, insertedBatches_map_insert] at hb
      rw [show insertedBatches [SFEvent.ensureTable table] = [] from rfl,
        show insertedBatches [SFEvent.commit, SFEvent.close] = [] from rfl] at hb
      simp only [List.nil_append, List.append_nil] at hb
      rw [show insertedBatches [SFEvent.insert table
          ((sinkLoop table ind date bs (fun _ => true) rows 0 0 []
            [SFEvent.ensureTable table] []).batch)]
        = [(sinkLoop table ind date bs (fun _ => true) rows 0 0 []
            [SFEvent.ensureTable table] []).batch] from rfl] at hb
      rcases List.mem_append.1 hb with hb | hb
      · have := hilen b hb
        constructor <;> omega
      · rw [List.mem_singleton] at hb
        subst hb
        refine ⟨?_, hbs2⟩
        rw [hbatch]
        omega
    · rw [hn]

/-- The configuration produced from `goodEnv`. -/
def goodCfg : List (String × String) :=
  [("account", "acct"), ("user", "user"), ("password", "pw"),
   ("warehouse", "wh"), ("database", "db"), ("schema", "sch")]

/-- Claim C2, witness: five records with batch size 2 → 3 insert calls and a
returned count of 5. -/
theorem c2_insert_batching_witness :
    (insertedBatches (write_jsonl_and_snowflake goodEnv true (fun _ => true)
        "t" "IND" "2026-10-12" 2 availEx true).events).length
      = (availEx.length + 2 - 1) / 2 ∧
    (write_jsonl_and_snowflake goodEnv true (fun _ => true)
        "t" "IND" "2026-10-12" 2 availEx true).result = Except.ok availEx.length :=
  ⟨(c2_insert_batching goodEnv goodCfg "t" "IND" "2026-10-12" 2 availEx rfl
      (by omega)).1,
   (c2_insert_batching goodEnv goodCfg "t" "IND" "2026-10-12" 2 availEx rfl
      (by omega)).2.2.2⟩

/-- Claim C3: once the configuration is read and the connection established,
the connection is always closed last (every exit path); the transaction is
committed exactly once — after every insert, only when the run returns a
count (stream exhausted, all batches flushed) — and on any failing run no
commit appears in the trace at all. -/
theorem c3_commit_once (env : String → Option String)
    (cfg : List (String × String)) (insertOk : Nat → Bool)
    (table ind date : String) (bs : Nat) (rows : List Rec) (streamOk : Bool)
    (hcfg : get_snowflake_config env = Except.ok cfg) :
    ((write_jsonl_and_snowflake env true insertOk table ind date bs rows
        streamOk).events.getLast? = some SFEvent.close) ∧
    (∀ N, (write_jsonl_and_snowflake env true insertOk table ind date bs rows
        streamOk).result = Except.ok N →
      ∃ pre, (write_jsonl_and_snowflake env true insertOk table ind date bs rows
          streamOk).events = pre ++ [SFEvent.commit, SFEvent.close]
        ∧ SFEvent.commit ∉ pre) ∧
    (∀ msg, (write_jsonl_and_snowflake env true insertOk table ind date bs rows
        streamOk).result = Except.error msg →
      SFEvent.commit ∉ (write_jsonl_and_snowflake env true insertOk table ind
        date bs rows streamOk).events) := by
  obtain ⟨new, hnew, hins⟩ := sinkLoop_events_mono table ind date bs insertOk
    rows 0 0 [] [SFEvent.ensureTable table] []
  have hnc : SFEvent.commit ∉ (sinkLoop table ind date bs insertOk rows 0 0 []
      [SFEvent.ensureTable table] []).events := by
    rw [hnew]
    intro hmem
    rcases List.mem_append.1 hmem with h | h
    · rw [List.mem_singleton] at h
      exact absurd h (by simp)
    · obtain ⟨b, hb⟩ := hins _ h
      exact absurd hb (by simp)
  rw [write_jsonl_and_snowflake, hcfg]
  simp only [if_pos rfl, reduceIte]
  by_cases hok : (sinkLoop table ind date bs insertOk rows 0 0 []
      [SFEvent.ensureTable table] []).ok = true
  · rw [if_pos hok]
    cases streamOk with
    | false =>
      simp only [Bool.false_eq_true, if_false, reduceIte]
      refine ⟨?_, ?_, ?_⟩
      · rw [show (sinkLoop table ind date bs insertOk rows 0 0 []
              [SFEvent.ensureTable table] []).events ++ [SFEvent.close]
            = ((sinkLoop table ind date bs insertOk rows 0 0 []
              [SFEvent.ensureTable table] []).events ++ []) ++ [SFEvent.close]
            from by simp]
        exact List.getLast?_concat _
      · intro N hN
        exact absurd hN (by simp)
      · intro msg _
        intro hmem
        rcases List.mem_append.1 hmem with h | h
        · exact hnc h
        · rw [List.mem_singleton] at h
          exact absurd h (by simp)
    | true =>
      simp only [ite_true, reduceIte]
      by_cases hbe : (sinkLoop table ind date bs insertOk rows 0 0 []
          [SFEvent.ensureTable table] []).batch.isEmpty = true
      · rw [if_pos hbe]
        refine ⟨?_, ?_, ?_⟩
        · rw [show (sinkLoop table ind date bs insertOk rows 0 0 []
                [SFEvent.ensureTable table] []).events
                ++ [SFEvent.commit, SFEvent.close]
              = ((sinkLoop table ind date bs insertOk rows 0 0 []
                [SFEvent.ensureTable table] []).events ++ [SFEvent.commit])
                ++ [SFEvent.close] from by simp]
          exact List.getLast?_concat _
        · intro N _
          exact ⟨_, rfl, hnc⟩
        · intro msg hmsg
          exact absurd hmsg (by simp)
      · rw [if_neg hbe]
        by_cases hik : insertOk (sinkLoop table ind date bs insertOk rows 0 0 []
            [SFEvent.ensureTable table] []).k = true
        · rw [if_pos hik]
          refine ⟨?_, ?_, ?_⟩
          · rw [show ((sinkLoop table ind date bs insertOk rows 0 0 []
                  [SFEvent.ensureTable table] []).events
                  ++ [SFEvent.insert table ((sinkLoop table ind date bs insertOk
                    rows 0 0 [] [SFEvent.ensureTable table] []).batch)])
                  ++ [SFEvent.commit, SFEvent.close]
                = (((sinkLoop table ind date bs insertOk rows 0 0 []
                  [SFEvent.ensureTable table] []).events
                  ++ [SFEvent.insert table ((sinkLoop table ind date bs insertOk
                    rows 0 0 [] [SFEvent.ensureTable table] []).batch)])
                  ++ [SFEvent.commit]) ++ [SFEvent.close] from by simp]
            exact List.getLast?_concat _
          · intro N _
            refine ⟨_, rfl, ?_⟩
            intro hmem
            rcases List.mem_append.1 hmem with h | h
            · exact hnc h
            · rw [List.mem_singleton] at h
              exact absurd h (by simp)
          · intro msg hmsg
            exact absurd hmsg (by simp)
        · rw [if_neg hik]
          refine ⟨?_, ?_, ?_⟩
          · rw [show ((sinkLoop table ind date bs insertOk rows 0 0 []
                  [SFEvent.ensureTable table] []).events
                  ++ [SFEvent.insert table ((sinkLoop table ind date bs insertOk
                    rows 0 0 [] [SFEvent.ensureTable table] []).batch)])
                  ++ [SFEvent.close]
                = (((sinkLoop table ind date bs insertOk rows 0 0 []
                  [SFEvent.ensureTable table] []).events
                  ++ [SFEvent.insert table ((sinkLoop table ind date bs insertOk
                    rows 0 0 [] [SFEvent.ensureTable table] []).batch)]) ++ [])
                  ++ [SFEvent.close] from by simp]
            exact List.getLast?_concat _
          · intro N hN
            exact absurd hN (by simp)
          · intro msg _
            intro hmem
            rcases List.mem_append.1 hmem with h | h
            · rcases List.mem_append.1 h with h2 | h2
              · exact hnc h2
              · rw [List.mem_singleton] at h2
                exact absurd h2 (by simp)
            · rw [List.mem_singleton] at h
              exact absurd h (by simp)
  · rw [if_neg hok]
    refine ⟨?_, ?_, ?_⟩
    · rw [show (sinkLoop table ind date bs insertOk rows 0 0 []
            [SFEvent.ensureTable table] []).events ++ [SFEvent.close]
          = ((sinkLoop table ind date bs insertOk rows 0 0 []
            [SFEvent.ensureTable table] []).events ++ []) ++ [SFEvent.close]
          from by simp]
      exact List.getLast?_concat _
    · intro N hN
      exact absurd hN (by simp)
    · intro msg _
      intro hmem
      rcases List.mem_append.1 hmem with h | h
      · exact hnc h
      · rw [List.mem_singleton] at h
        exact absurd h (by simp)

/-- Claim C3, witness: a failing insert (every insert rejected) on a
nonempty stream still closes the connection last, and a successful run's
trace ends with commit then close. -/
theorem c3_commit_once_witness :
    ((write_jsonl_and_snowflake goodEnv true (fun _ => false)
        "t" "IND" "2026-10-12" 2 availEx true).events.getLast?
      = some SFEvent.close) ∧
    ((write_jsonl_and_snowflake goodEnv true (fun _ => true)
        "t" "IND" "2026-10-12" 2 availEx true).events.getLast?
      = some SFEvent.close) :=
  ⟨(c3_commit_once goodEnv goodCfg (fun _ => false) "t" "IND" "2026-10-12" 2
      availEx true rfl).1,
   (c3_commit_once goodEnv goodCfg (fun _ => true) "t" "IND" "2026-10-12" 2
      availEx true rfl).1⟩

theorem configStep_missing_mono (env : String → Option String) :
    ∀ (l : List (String × String)) (acc : List (String × String) × List String)
      (x : String), x ∈ acc.2 → x ∈ (l.foldl (configStep env) acc).2 := by
  intro l
  induction l with
  | nil => intro acc x hx; exact hx
  | cons kv l ih =>
    intro acc x hx
    refine ih (configStep env acc kv) x ?_
    cases henv : env kv.1 with
    | none =>
      simp only [configStep, henv]
      exact List.mem_append_left _ hx
    | some v =>
      by_cases hv : v = ""
      · simp only [configStep, henv, if_pos hv]
        exact List.mem_append_left _ hx
      · simp only [configStep, henv, if_neg hv]
        exact hx

theorem config_missing_of_bad (env : String → Option String) (ek ck : String)
    (hbad : env ek = none ∨ env ek = some "") :
    ∀ (l : List (String × String)) (acc : List (String × String) × List String),
      (ek, ck) ∈ l → ek ∈ (l.foldl (configStep env) acc).2 := by
  intro l
  induction l with
  | nil => intro acc h; exact absurd h (by simp)
  | cons kv l ih =>
    intro acc hmem
    rcases List.mem_cons.1 hmem with h | h
    · refine configStep_missing_mono env l (configStep env acc kv) ek ?_
      rcases hbad with hb | hb
      · simp only [configStep, ← h, hb]
        exact List.mem_append_right _ (List.mem_singleton.2 rfl)
      · simp only [configStep, ← h, hb, reduceIte, ite_true]
        exact List.mem_append_right _ (List.mem_singleton.2 rfl)
    · exact ih (configStep env acc kv) h

/-- Claim C9: the warehouse configuration is read, and the connection
established, before the local output file is opened. If a required
environment variable is unset or empty, `get_snowflake_config` raises and the
run errors with the output file untouched; likewise, if the configuration is
fine but the connection fails, the run errors with the file untouched. -/
theorem c9_config_before_file (env : String → Option String) (ek ck : String)
    (hmem : (ek, ck) ∈ env_map) (hbad : env ek = none ∨ env ek = some "")
    (connectOk : Bool) (insertOk : Nat → Bool) (table ind date : String)
    (bs : Nat) (rows : List Rec) (streamOk : Bool) :
    (∃ msg, get_snowflake_config env = Except.error msg) ∧
    (write_jsonl_and_snowflake env connectOk insertOk table ind date bs rows
        streamOk).file = none ∧
    (∃ msg, (write_jsonl_and_snowflake env connectOk insertOk table ind date bs
        rows streamOk).result = Except.error msg) ∧
    (∀ (env2 : String → Option String) (cfg : List (String × String)),
      get_snowflake_config env2 = Except.ok cfg →
      (write_jsonl_and_snowflake env2 false insertOk table ind date bs rows
          streamOk).file = none ∧
      ∃ msg, (write_jsonl_and_snowflake env2 false insertOk table ind date bs
          rows streamOk).result = Except.error msg) := by
  have hmiss : ek ∈ (env_map.foldl (configStep env) ([], [])).2 :=
    config_missing_of_bad env ek ck hbad env_map ([], []) hmem
  have herr : ∃ msg, get_snowflake_config env = Except.error msg := by
    rw [get_snowflake_config]
    rw [if_neg (List.ne_nil_of_mem hmiss)]
    exact ⟨_, rfl⟩
  obtain ⟨msg, hmsg⟩ := herr
  refine ⟨⟨msg, hmsg⟩, ?_, ?_, ?_⟩
  · rw [write_jsonl_and_snowflake, hmsg]
  · rw [write_jsonl_and_snowflake, hmsg]
    exact ⟨msg, rfl⟩
  · intro env2 cfg hcfg2
    rw [write_jsonl_and_snowflake, hcfg2]
    exact ⟨rfl, "connect failed", rfl⟩

/-- Claim C9, witness: with the password unset, the config step fails and the
dual-sink writer reports an error without ever opening the output file. -/
theorem c9_config_before_file_witness :
    (write_jsonl_and_snowflake badEnv true (fun _ => true)
        "t" "IND" "2026-10-12" 2 availEx true).file = none :=
  (c9_config_before_file badEnv "SNOWFLAKE_PASSWORD" "password" (by decide)
    (Or.inl rfl) true (fun _ => true) "t" "IND" "2026-10-12" 2 availEx true).2.1

theorem dictGet_eq_none_of_no_key (r : Rec) (h : ∀ kv ∈ r, kv.1 ≠ "Id") :
    dictGet r "Id" = none := by
  induction r with
  | nil => rfl
  | cons kv rest ih =>
    obtain ⟨k, w⟩ := kv
    have hne : ("Id" == k) = false := by
      rw [beq_eq_false_iff_ne]
      exact fun he => (h (k, w) (List.mem_cons_self _ _)) he.symm
    rw [dictGet, List.lookup, hne]
    rw [dictGet] at ih
    exact ih fun kv2 hkv2 => h kv2 (List.mem_cons_of_mem _ hkv2)

theorem dictGet_mem_of_some (r : Rec) (v : Json) (h : dictGet r "Id" = some v) :
    ("Id", v) ∈ r := by
  induction r with
  | nil => exact absurd h (by simp [dictGet])
  | cons kv rest ih =>
    obtain ⟨k, w⟩ := kv
    rw [dictGet, List.lookup] at h
    cases hbeq : "Id" == k with
    | true =>
      rw [hbeq] at h
      simp only [Option.some.injEq] at h
      have hk : "Id" = k := eq_of_beq hbeq
      rw [← hk, ← h]
      exact List.mem_cons_self _ _
    | false =>
      rw [hbeq] at h
      rw [dictGet] at ih
      exact List.mem_cons_of_mem _ (ih h)

/-- Claim C10: on the success path, the sequence of correlation-id column
values across all insert calls equals, record for record, `row.get("Id")` —
the value under the exact key `"Id"`; a record without that exact key (in
particular one with only a differently-cased key such as `"id"`) yields a
null id, and a non-null id always comes from an `("Id", value)` field of the
record. -/
theorem c10_correlation_id (env : String → Option String)
    (cfg : List (String × String)) (table ind date : String) (bs : Nat)
    (rows : List Rec) (hcfg : get_snowflake_config env = Except.ok cfg)
    (hbs : 1 ≤ bs) :
    ((insertedBatches (write_jsonl_and_snowflake env true (fun _ => true)
        table ind date bs rows true).events).flatten).map SFRow.id
      = rows.map (fun r => dictGet r "Id") ∧
    (∀ r : Rec, (∀ kv ∈ r, kv.1 ≠ "Id") → dictGet r "Id" = none) ∧
    (∀ (r : Rec) (v : Json), dictGet r "Id" = some v → ("Id", v) ∈ r) := by
  refine ⟨?_, dictGet_eq_none_of_no_key, dictGet_mem_of_some⟩
  obtain ⟨hok, hlines, hn, hk, hbatch, ins, hievents, hilen, hicount, hijoin⟩ :=
    sinkLoop_ok_spec table ind date bs hbs rows 0 0 []
      [SFEvent.ensureTable table] [] (by simp only [List.length_nil]; omega)
  simp only [List.length_nil, Nat.zero_add] at hbatch
  rw [List.nil_append] at hijoin
  rw [write_jsonl_and_snowflake, hcfg]
  simp only [if_pos rfl, reduceIte, hok, ite_true]
  by_cases hmod : rows.length % bs = 0
  · have hempty : (sinkLoop table ind date bs (fun _ => true) rows 0 0 []
        [SFEvent.ensureTable table] []).batch = [] := by
      rw [← List.length_eq_zero, hbatch, hmod]
    rw [hempty]
    simp only [List.isEmpty_nil, ite_true, reduceIte]
    rw [insertedBatches, List.filterMap_append, ← insertedBatches,
      ← insertedBatches, hievents, insertedBatches, List.filterMap_append,
      ← insertedBatches, ← insertedBatches, insertedBatches_map_insert]
    rw [show insertedBatches [SFEvent.ensureTable table] = [] from rfl,
      show insertedBatches [SFEvent.commit, SFEvent.close] = [] from rfl]
    rw [List.nil_append, List.append_nil]
    rw [hempty, List.append_nil] at hijoin
    rw [hijoin, List.map_map]
    rfl
  · have hne : (sinkLoop table ind date bs (fun _ => true) rows 0 0 []
        [SFEvent.ensureTable table] []).batch ≠ [] := by
      intro hc
      rw [hc] at hbatch
      simp only [List.length_nil] at hbatch
      omega
    rw [if_neg (by rw [List.isEmpty_iff]; exact hne)]
    simp only [ite_true, reduceIte]
    rw [insertedBatches, List.filterMap_append, List.filterMap_append,
      ← insertedBatches, ← insertedBatches, ← insertedBatches, hievents,
      insertedBatches, List.filterMap_append, ← insertedBatches,
      ← insertedBatches, insertedBatches_map_insert]
    rw [show insertedBatches [SFEvent.ensureTable table] = [] from rfl,
      show insertedBatches [SFEvent.commit, SFEvent.close] = [] from rfl]
    simp only [List.nil_append, List.append_nil]
    rw [show insertedBatches [SFEvent.insert table
        ((sinkLoop table ind date bs (fun _ => true) rows 0 0 []
          [SFEvent.ensureTable table] []).batch)]
      = [(sinkLoop table ind date bs (fun _ => true) rows 0 0 []
          [SFEvent.ensureTable table] []).batch] from rfl]
    rw [List.flatten_append, List.flatten_cons, List.flatten_nil,
      List.append_nil, hijoin, List.map_map]
    rfl

/-- A mixed-case pair of records: only the exact key `"Id"` populates the
correlation id. -/
def rowsMix : List Rec := [[("id", Json.str "low")], [("Id", Json.str "up")]]

/-- Claim C10, witness: the lowercase-`"id"` record gets a null correlation
id; the exact-`"Id"` record gets its value. -/
theorem c10_correlation_id_witness :
    ((insertedBatches (write_jsonl_and_snowflake goodEnv true (fun _ => true)
        "t" "IND" "2026-10-12" 2 rowsMix true).events).flatten).map SFRow.id
      = rowsMix.map (fun r => dictGet r "Id") :=
  (c10_correlation_id goodEnv goodCfg "t" "IND" "2026-10-12" 2 rowsMix rfl
    (by omega)).1
